import Mathlib

/-!
Shallow embedding of the `search_engine_parallel` repository: an in-memory
text search index (inverted index with per-document term frequencies,
plus/minus query parsing, sequential and parallel matching/removal, and
duplicate-document detection).  Definitions mirror `src/search_server.cpp`,
`src/string_processing.cpp`/`.h` and `src/test_example_functions.cpp`.

Modelling conventions: C++ `std::map`/`std::set` members become association
lists / sorted integer lists; `double` term frequencies become exact
rationals (`ℚ`); a method that may throw and mutate `*this` becomes a
function returning the post-call state paired with an optional error kind
(the state returned on error is the state at the throw point, capturing any
mutations that had already happened).
-/

/-- Error kinds, one per distinct `throw` site / failure mode of the C++ code
(`invalid_argument("Invalid document_id")`, `invalid_argument("Word ... is
invalid")`, `invalid_argument("Query word is empty")`,
`invalid_argument("Query word ... is invalid")`, and `std::out_of_range` from
`documents_.at` on an unknown document id). -/
inductive Err where
  | invalidDocumentId
  | invalidWord
  | emptyQueryWord
  | invalidQueryWord
  | unknownDocument
deriving DecidableEq

/-- The closed set of document states (the `DocumentStatus` enum). -/
inductive DocumentStatus where
  | active
  | irrelevant
  | banned
  | removed
deriving DecidableEq

/-- Per-document metadata stored by the server (`SearchServer::DocumentData`):
average rating, status, and an owned copy of the original text. -/
structure DocumentData where
  rating : Int
  status : DocumentStatus
  text : String
deriving DecidableEq

/-- First-match lookup in an association list; models `std::map::find`/`at`. -/
def lookupKey {α β : Type} [DecidableEq α] : List (α × β) → α → Option β
  | [], _ => none
  | p :: rest, k => if p.1 = k then some p.2 else lookupKey rest k

/-- Models `m[k]` followed by applying `f` to the mapped value: if `k` is
present its value is updated by `f`, otherwise `k` is inserted with value
`f d` (`d` is the value-initialised default `operator[]` would create). -/
def mapUpd {α β : Type} [DecidableEq α] : List (α × β) → α → β → (β → β) → List (α × β)
  | [], k, d, f => [(k, f d)]
  | p :: rest, k, d, f =>
    if p.1 = k then (p.1, f p.2) :: rest else p :: mapUpd rest k d f

/-- Models `std::map::erase(k)`: drops the entry with key `k`. -/
def eraseKey {α β : Type} [DecidableEq α] : List (α × β) → α → List (α × β)
  | [], _ => []
  | p :: rest, k => if p.1 = k then eraseKey rest k else p :: eraseKey rest k

/-- Models `m.at(k)` followed by a mutation `f` of the mapped value; a key
that is absent (which would make `at` throw — unreachable for the states the
code runs on) leaves the map unchanged. -/
def updExisting {α β : Type} [DecidableEq α] : List (α × β) → α → (β → β) → List (α × β)
  | [], _, _ => []
  | p :: rest, k, f =>
    if p.1 = k then (p.1, f p.2) :: rest else p :: updExisting rest k f

/-- Models `std::set<int>::insert`: keeps the list strictly ascending. -/
def insertSorted (id : Int) : List Int → List Int
  | [] => [id]
  | x :: xs =>
    if id < x then id :: x :: xs
    else if id = x then x :: xs
    else x :: insertSorted id xs

/-- Lexicographic strict order on character lists; models the byte-wise
`operator<` on `std::string_view` (UTF-8 byte order and code-point order
agree). -/
def lexLtb : List Char → List Char → Bool
  | [], [] => false
  | [], _ :: _ => true
  | _ :: _, [] => false
  | a :: as, b :: bs => if a < b then true else if b < a then false else lexLtb as bs

/-- Strict `operator<` on words. -/
def strLtb (a b : String) : Bool := lexLtb a.data b.data

/-- Insert a word into a `strLtb`-sorted list, keeping it sorted. -/
def insertLe (x : String) : List String → List String
  | [] => [x]
  | y :: ys => if strLtb y x then y :: insertLe x ys else x :: y :: ys

/-- Insertion sort by `strLtb`; models `std::sort` on a word vector (words
that compare equal are byte-equal, so any correct sort yields this list). -/
def sortWords (l : List String) : List String := l.foldr insertLe []

/-- Drop adjacent duplicates, keeping the first of each run; models
`std::unique` followed by `erase`. -/
def dedupAdj : List String → List String
  | [] => []
  | [a] => [a]
  | a :: b :: rest => if a = b then dedupAdj (b :: rest) else a :: dedupAdj (b :: rest)

/-- `std::sort` + `std::unique` + `erase`, as applied to query word vectors. -/
def sortUnique (l : List String) : List String := dedupAdj (sortWords l)

/-- Splitting loop of `SplitIntoWords` (`string_processing.cpp`): repeatedly
find the next `' '`, push the prefix (the accumulator holds the current
segment reversed), and continue past the space; the final segment (the
`npos` case) is always pushed, so empty segments are emitted too. -/
def splitAux : List Char → List Char → List (List Char)
  | [], acc => [acc.reverse]
  | c :: cs, acc =>
    if c = ' ' then acc.reverse :: splitAux cs [] else splitAux cs (c :: acc)

/-- `SplitIntoWords` from `string_processing.cpp`: split on every single
space, emitting every segment (including empty ones) in order. -/
def SplitIntoWords (text : String) : List String :=
  (splitAux text.data []).map String.mk

/-- `MakeUniqueNonEmptyStrings` from `string_processing.h`: the deduplicated,
sorted `std::set` of the non-empty input strings. -/
def MakeUniqueNonEmptyStrings (strings : List String) : List String :=
  sortUnique (strings.filter (fun w => decide (w ≠ "")))

/-- `SearchServer::IsValidWord`: no character with code point below `0x20`. -/
def IsValidWord (word : String) : Bool :=
  word.data.all (fun c => decide (32 ≤ c.toNat))

/-- The `SearchServer` state: stop-word set, reverse postings
(`word_to_document_freqs_`), forward postings (`document_to_word_freqs_`),
document metadata (`documents_`), and the ascending id set
(`document_ids_`). -/
structure SearchServer where
  stop_words : List String
  word_to_document_freqs : List (String × List (Int × ℚ))
  document_to_word_freqs : List (Int × List (String × ℚ))
  documents : List (Int × DocumentData)
  document_ids : List Int
deriving DecidableEq

/-- A fresh server holding the given stop words (the delegating constructors
route the stop-word container through `MakeUniqueNonEmptyStrings`). -/
def initServer (stop : List String) : SearchServer :=
  ⟨MakeUniqueNonEmptyStrings stop, [], [], [], []⟩

/-- `SearchServer::IsStopWord`. -/
def IsStopWord (s : SearchServer) (word : String) : Bool :=
  decide (word ∈ s.stop_words)

/-- Body of the loop in `SearchServer::SplitIntoWordsNoStop`: validate each
token in order (throwing `InvalidWord` at the first invalid one) and keep the
tokens that are not stop words. -/
def filterValidNoStop (s : SearchServer) : List String → Except Err (List String)
  | [] => .ok []
  | w :: ws =>
    if IsValidWord w then
      match filterValidNoStop s ws with
      | .error e => .error e
      | .ok rest => .ok (if IsStopWord s w then rest else w :: rest)
    else .error .invalidWord

/-- `SearchServer::SplitIntoWordsNoStop`. -/
def SplitIntoWordsNoStop (s : SearchServer) (text : String) : Except Err (List String) :=
  filterValidNoStop s (SplitIntoWords text)

/-- `SearchServer::ComputeAverageRating`: truncated (toward-zero) mean of the
ratings, `0` for an empty list. -/
def ComputeAverageRating (ratings : List Int) : Int :=
  if ratings = [] then 0
  else (ratings.foldl (· + ·) 0).tdiv (ratings.length : Int)

/-- One iteration of the posting-recording loop in `AddDocument`:
`word_to_document_freqs_[word][document_id] += inv` and
`document_to_word_freqs_[document_id][word] += inv`. -/
def recordWord (document_id : Int) (inv : ℚ) (st : SearchServer) (w : String) : SearchServer :=
  { st with
    word_to_document_freqs :=
      mapUpd st.word_to_document_freqs w [] (fun m => mapUpd m document_id 0 (fun q => q + inv)),
    document_to_word_freqs :=
      mapUpd st.document_to_word_freqs document_id [] (fun m => mapUpd m w 0 (fun q => q + inv)) }

/-- `SearchServer::AddDocument`.  Mirrors the statement order of the C++
method: the id check, then `documents_.emplace` (which happens BEFORE token
validation — on an invalid token the metadata entry is left behind), then
tokenisation/validation, then recording the postings with uniform weight
`1 / words.size()`, and finally `document_ids_.insert`. -/
def AddDocument (s : SearchServer) (document_id : Int) (document : String)
    (status : DocumentStatus) (ratings : List Int) : SearchServer × Option Err :=
  if document_id < 0 ∨ (lookupKey s.documents document_id).isSome then
    (s, some Err.invalidDocumentId)
  else
    let s1 : SearchServer :=
      { s with documents :=
          s.documents ++ [(document_id, ⟨ComputeAverageRating ratings, status, document⟩)] }
    match SplitIntoWordsNoStop s1 document with
    | .error e => (s1, some e)
    | .ok words =>
      let inv : ℚ := 1 / (words.length : ℚ)
      let s2 := words.foldl (recordWord document_id inv) s1
      ({ s2 with document_ids := insertSorted document_id s2.document_ids }, none)

/-- `SearchServer::GetDocumentCount` (`documents_.size()`). -/
def GetDocumentCount (s : SearchServer) : Nat := s.documents.length

/-- The ascending sequence of indexed document ids (`begin()`/`end()` over
`document_ids_`). -/
def documentIds (s : SearchServer) : List Int := s.document_ids

/-- `SearchServer::GetWordFrequencies`: the forward posting map of the id, or
the empty dummy map when the id is unknown. -/
def GetWordFrequencies (s : SearchServer) (document_id : Int) : List (String × ℚ) :=
  (lookupKey s.document_to_word_freqs document_id).getD []

/-- Whether `word_to_document_freqs_` has a posting for `word` at
`document_id` (the `count(word)` / `at(word).count(document_id)` probe used
by matching). -/
def hasPosting (s : SearchServer) (word : String) (document_id : Int) : Bool :=
  match lookupKey s.word_to_document_freqs word with
  | none => false
  | some inner => (lookupKey inner document_id).isSome

/-- Result of `SearchServer::ParseQueryWord`: the stripped word, whether it
carried a leading `-`, and whether it is a stop word. -/
structure QueryWord where
  data : String
  is_minus : Bool
  is_stop : Bool

/-- `SearchServer::ParseQueryWord`: empty tokens fail, a leading `-` marks a
minus word and is stripped, and the stripped word must be non-empty, not
start with another `-`, and contain no control character. -/
def ParseQueryWord (s : SearchServer) (word : String) : Except Err QueryWord :=
  if word = "" then .error .emptyQueryWord
  else
    let is_minus : Bool := decide (word.data.head? = some '-')
    let w : String := if is_minus then String.mk word.data.tail else word
    if w = "" ∨ w.data.head? = some '-' ∨ IsValidWord w = false then
      .error .invalidQueryWord
    else .ok ⟨w, is_minus, IsStopWord s w⟩

/-- A parsed query (`SearchServer::Query`): plus words and minus words. -/
structure Query where
  plus_words : List String
  minus_words : List String
deriving DecidableEq

/-- The token loop of `SearchServer::ParseQuery`: parse each token in order
(the first malformed token aborts the whole parse), discard stop words, and
append the rest to the plus or minus list in traversal order. -/
def parseTokens (s : SearchServer) : List String → Except Err Query
  | [] => .ok ⟨[], []⟩
  | w :: ws =>
    match ParseQueryWord s w with
    | .error e => .error e
    | .ok qw =>
      match parseTokens s ws with
      | .error e => .error e
      | .ok q =>
        .ok (if qw.is_stop then q
             else if qw.is_minus then ⟨q.plus_words, qw.data :: q.minus_words⟩
             else ⟨qw.data :: q.plus_words, q.minus_words⟩)

/-- `SearchServer::ParseQuery`: tokenize, classify, and (unless `skip_sort`
is set, as in the parallel match path) sort + deduplicate both word lists. -/
def ParseQuery (s : SearchServer) (text : String) (skip_sort : Bool) : Except Err Query :=
  match parseTokens s (SplitIntoWords text) with
  | .error e => .error e
  | .ok q =>
    if skip_sort then .ok q
    else .ok ⟨sortUnique q.plus_words, sortUnique q.minus_words⟩

/-- `SearchServer::MatchDocument` (sequenced policy): parse with
sorting/deduplication, fetch the document's status (`documents_.at` throws on
an unknown id), short-circuit on any minus-word posting, else collect the
plus words that have a posting for the id. -/
def MatchDocumentSeq (s : SearchServer) (raw_query : String) (document_id : Int) :
    Except Err (List String × DocumentStatus) :=
  match ParseQuery s raw_query false with
  | .error e => .error e
  | .ok query =>
    match lookupKey s.documents document_id with
    | none => .error .unknownDocument
    | some data =>
      if query.minus_words.any (fun w => hasPosting s w document_id) then
        .ok ([], data.status)
      else
        .ok (query.plus_words.filter (fun w => hasPosting s w document_id), data.status)

/-- `SearchServer::MatchDocument` (parallel policy): parse with `skip_sort`,
`any_of` over the minus words, `copy_if` over the plus words, then
`sort` + `unique` + `erase` on the matched words. -/
def MatchDocumentPar (s : SearchServer) (raw_query : String) (document_id : Int) :
    Except Err (List String × DocumentStatus) :=
  match ParseQuery s raw_query true with
  | .error e => .error e
  | .ok query =>
    match lookupKey s.documents document_id with
    | none => .error .unknownDocument
    | some data =>
      if query.minus_words.any (fun w => hasPosting s w document_id) then
        .ok ([], data.status)
      else
        .ok (sortUnique (query.plus_words.filter (fun w => hasPosting s w document_id)),
             data.status)

/-- `SearchServer::RemoveDocument` (sequenced policy): early-return when
`document_to_word_freqs_` has no entry for the id; otherwise erase the id
from `document_ids_` and `documents_`, erase it from each of its words'
reverse posting maps, and erase its forward posting map. -/
def RemoveDocumentSeq (s : SearchServer) (document_id : Int) : SearchServer :=
  match lookupKey s.document_to_word_freqs document_id with
  | none => s
  | some wordFreqs =>
    let s1 : SearchServer :=
      { s with
        document_ids := s.document_ids.filter (fun i => decide (i ≠ document_id)),
        documents := eraseKey s.documents document_id }
    let s2 := wordFreqs.foldl (fun st p =>
      { st with word_to_document_freqs :=
          updExisting st.word_to_document_freqs p.1 (fun m => eraseKey m document_id) }) s1
    { s2 with document_to_word_freqs := eraseKey s2.document_to_word_freqs document_id }

/-- `SearchServer::RemoveDocument` (parallel policy): same early return and
metadata erasure, then a `transform` collecting the document's words followed
by a parallel `for_each` erasing the id from each word's reverse posting map
(each worker touches a distinct word), then erasing the forward map. -/
def RemoveDocumentPar (s : SearchServer) (document_id : Int) : SearchServer :=
  match lookupKey s.document_to_word_freqs document_id with
  | none => s
  | some wordFreqs =>
    let s1 : SearchServer :=
      { s with
        document_ids := s.document_ids.filter (fun i => decide (i ≠ document_id)),
        documents := eraseKey s.documents document_id }
    let words := wordFreqs.map Prod.fst
    let s2 := words.foldl (fun st w =>
      { st with word_to_document_freqs :=
          updExisting st.word_to_document_freqs w (fun m => eraseKey m document_id) }) s1
    { s2 with document_to_word_freqs := eraseKey s2.document_to_word_freqs document_id }

/-- The `std::set<std::string_view>` of distinct terms a document indexes
(the keys of its `GetWordFrequencies` map), in sorted order. -/
def wordSetOf (s : SearchServer) (document_id : Int) : List String :=
  sortUnique ((GetWordFrequencies s document_id).map Prod.fst)

/-- The scan loop of `RemoveDuplicates` (`test_example_functions.cpp`):
walk the ids in ascending order with the set of term-sets seen so far; an id
whose term set was already seen is recorded as a duplicate, otherwise its
term set is added to the seen set. -/
def duplicateScan (s : SearchServer) : List Int → List (List String) → List Int
  | [], _ => []
  | id :: rest, seen =>
    if wordSetOf s id ∈ seen then id :: duplicateScan s rest seen
    else duplicateScan s rest (seen ++ [wordSetOf s id])

/-- `RemoveDuplicates` from `test_example_functions.cpp`: scan the index for
ids whose term set repeats one seen at a lower id, then remove each of them
with the (sequenced) `RemoveDocument`. -/
def RemoveDuplicates (s : SearchServer) : SearchServer :=
  (duplicateScan s s.document_ids []).foldl RemoveDocumentSeq s

/-- A mutating index operation: an insertion, or a removal under either
execution policy. -/
inductive Op where
  | ins (id : Int) (text : String) (status : DocumentStatus) (ratings : List Int)
  | rem (id : Int)
  | remPar (id : Int)

/-- Apply one operation to the server (an insertion that fails leaves the
state the C++ method leaves behind after its throw). -/
def applyOp (s : SearchServer) : Op → SearchServer
  | .ins id text status ratings => (AddDocument s id text status ratings).1
  | .rem id => RemoveDocumentSeq s id
  | .remPar id => RemoveDocumentPar s id

/-- The server obtained by running a sequence of operations on a fresh
server with the given stop words. -/
def run (stop : List String) (ops : List Op) : SearchServer :=
  ops.foldl applyOp (initServer stop)

/-- Sum of the frequency values stored in a posting map. -/
def sumValues (m : List (String × ℚ)) : ℚ := (m.map Prod.snd).sum

/-- Join a word list with single spaces (the inverse of a single-space
split); used to state the tokenizer characterisation. -/
def joinWords : List String → String
  | [] => ""
  | [w] => w
  | w :: ws => w ++ " " ++ joinWords ws

/-- Invariants of the forward posting map maintained by every reachable
server state: a forward entry implies a metadata entry, forward posting maps
have no duplicate keys, every forward posting map sums to exactly `1`, and
every stored frequency lies in `(0, 1]`. -/
structure ServerInv (s : SearchServer) : Prop where
  forward_sub_docs : ∀ i, (lookupKey s.document_to_word_freqs i).isSome →
    (lookupKey s.documents i).isSome
  forward_keys_nodup : ∀ i m, lookupKey s.document_to_word_freqs i = some m →
    (m.map Prod.fst).Nodup
  freq_sum : ∀ i m, lookupKey s.document_to_word_freqs i = some m → sumValues m = 1
  freq_bounds : ∀ i m, lookupKey s.document_to_word_freqs i = some m →
    ∀ p ∈ m, 0 < p.2 ∧ p.2 ≤ 1

/-- The non-strict order induced by `strLtb` (what insertion keeps). -/
def leS (a b : String) : Prop := strLtb b a = false

/-- The strict order on words, as a proposition. -/
def ltS (a b : String) : Prop := strLtb a b = true

theorem lexLtb_irrefl : ∀ l : List Char, lexLtb l l = false
  | [] => rfl
  | a :: as => by simp [lexLtb, lt_irrefl, lexLtb_irrefl as]

theorem lexLtb_trans : ∀ a b c : List Char,
    lexLtb a b = true → lexLtb b c = true → lexLtb a c = true
  | [], [], _, h1, _ => by simp [lexLtb] at h1
  | [], _ :: _, [], _, h2 => by simp [lexLtb] at h2
  | [], _ :: _, _ :: _, _, _ => rfl
  | _ :: _, [], _, h1, _ => by simp [lexLtb] at h1
  | _ :: _, _ :: _, [], _, h2 => by simp [lexLtb] at h2
  | a :: as, b :: bs, c :: cs, h1, h2 => by
    simp only [lexLtb] at h1 h2 ⊢
    by_cases hab : a < b
    · by_cases hbc : b < c
      · simp [lt_trans hab hbc]
      · by_cases hcb : c < b
        · simp [hbc, hcb] at h2
        · have hbc' : b = c := le_antisymm (le_of_not_lt hcb) (le_of_not_lt hbc)
          subst hbc'
          simp [hab]
    · by_cases hba : b < a
      · simp [hab, hba] at h1
      · have hab' : a = b := le_antisymm (le_of_not_lt hba) (le_of_not_lt hab)
        subst hab'
        simp only [lt_irrefl, if_false] at h1
        by_cases hac : a < c
        · simp [hac]
        · by_cases hca : c < a
          · simp [hac, hca] at h2
          · have hac' : a = c := le_antisymm (le_of_not_lt hca) (le_of_not_lt hac)
            subst hac'
            simp only [lt_irrefl, if_false] at h2 ⊢
            exact lexLtb_trans as bs cs h1 h2

theorem lexLtb_eq_of_not : ∀ a b : List Char,
    lexLtb a b = false → lexLtb b a = false → a = b
  | [], [], _, _ => rfl
  | [], _ :: _, h1, _ => by simp [lexLtb] at h1
  | _ :: _, [], _, h2 => by simp [lexLtb] at h2
  | a :: as, b :: bs, h1, h2 => by
    simp only [lexLtb] at h1 h2
    by_cases hab : a < b
    · simp [hab] at h1
    · by_cases hba : b < a
      · simp [hba] at h2
      · have hab' : a = b := le_antisymm (le_of_not_lt hba) (le_of_not_lt hab)
        subst hab'
        simp only [lt_irrefl, if_false] at h1 h2
        rw [lexLtb_eq_of_not as bs h1 h2]

theorem lexLtb_asymm (a b : List Char) (h : lexLtb a b = true) : lexLtb b a = false := by
  cases hba : lexLtb b a
  · rfl
  · have := lexLtb_trans a b a h hba
    rw [lexLtb_irrefl] at this
    exact Bool.noConfusion this

theorem strLtb_irrefl (a : String) : strLtb a a = false := lexLtb_irrefl a.data

theorem strLtb_trans {a b c : String} (h1 : strLtb a b = true) (h2 : strLtb b c = true) :
    strLtb a c = true := lexLtb_trans a.data b.data c.data h1 h2

theorem strLtb_asymm {a b : String} (h : strLtb a b = true) : strLtb b a = false :=
  lexLtb_asymm a.data b.data h

theorem strLtb_eq_of_not {a b : String} (h1 : strLtb a b = false) (h2 : strLtb b a = false) :
    a = b := by
  cases a with
  | mk da =>
    cases b with
    | mk db => exact congrArg String.mk (lexLtb_eq_of_not da db h1 h2)

theorem strLtb_false_trans {a b c : String} (h1 : strLtb a b = false) (h2 : strLtb b c = false) :
    strLtb a c = false := by
  cases hac : strLtb a c
  · rfl
  · cases hba : strLtb b a
    · have hab : a = b := strLtb_eq_of_not h1 hba
      subst hab
      rw [hac] at h2
      exact h2
    · have h3 := strLtb_trans hba hac
      rw [h3] at h2
      exact h2

theorem mem_insertLe (x y : String) : ∀ l, y ∈ insertLe x l ↔ y = x ∨ y ∈ l
  | [] => by simp [insertLe]
  | z :: zs => by
    simp only [insertLe]
    by_cases h : strLtb z x
    · rw [if_pos h]
      simp only [List.mem_cons, mem_insertLe x y zs]
      tauto
    · rw [if_neg h]
      simp only [List.mem_cons]

theorem pairwise_insertLe (x : String) : ∀ l, l.Pairwise leS → (insertLe x l).Pairwise leS
  | [], _ => by simp [insertLe]
  | y :: ys, h => by
    obtain ⟨hy, hys⟩ := List.pairwise_cons.mp h
    simp only [insertLe]
    by_cases hyx : strLtb y x
    · rw [if_pos hyx, List.pairwise_cons]
      refine ⟨fun z hz => ?_, pairwise_insertLe x ys hys⟩
      rw [mem_insertLe] at hz
      rcases hz with rfl | hz
      · exact strLtb_asymm hyx
      · exact hy z hz
    · rw [if_neg hyx, List.pairwise_cons]
      have hyx' : strLtb y x = false := by
        cases hb : strLtb y x
        · rfl
        · exact absurd hb hyx
      refine ⟨fun z hz => ?_, h⟩
      rcases List.mem_cons.mp hz with rfl | hz
      · exact hyx'
      · exact strLtb_false_trans (hy z hz) hyx'

theorem mem_sortWords (y : String) : ∀ l, y ∈ sortWords l ↔ y ∈ l
  | [] => by simp [sortWords]
  | a :: l => by
    have : sortWords (a :: l) = insertLe a (sortWords l) := rfl
    rw [this, mem_insertLe, mem_sortWords y l, List.mem_cons]

theorem pairwise_sortWords : ∀ l, (sortWords l).Pairwise leS
  | [] => by simp [sortWords]
  | a :: l => pairwise_insertLe a (sortWords l) (pairwise_sortWords l)

theorem mem_dedupAdj (y : String) : ∀ l, y ∈ dedupAdj l ↔ y ∈ l
  | [] => by simp [dedupAdj]
  | [a] => by simp [dedupAdj]
  | a :: b :: rest => by
    simp only [dedupAdj]
    by_cases h : a = b
    · rw [if_pos h, mem_dedupAdj y (b :: rest)]
      subst h
      simp [List.mem_cons]
    · rw [if_neg h]
      simp only [List.mem_cons, mem_dedupAdj y (b :: rest)]

theorem pairwise_dedupAdj : ∀ l, l.Pairwise leS → (dedupAdj l).Pairwise ltS
  | [], _ => by simp [dedupAdj]
  | [a], _ => by simp [dedupAdj]
  | a :: b :: rest, h => by
    obtain ⟨ha, h2⟩ := List.pairwise_cons.mp h
    simp only [dedupAdj]
    by_cases hab : a = b
    · rw [if_pos hab]
      exact pairwise_dedupAdj (b :: rest) h2
    · rw [if_neg hab, List.pairwise_cons]
      refine ⟨fun z hz => ?_, pairwise_dedupAdj (b :: rest) h2⟩
      rw [mem_dedupAdj] at hz
      cases haz : strLtb a z
      · exfalso
        have haz' : a = z := strLtb_eq_of_not haz (ha z hz)
        subst haz'
        rcases List.mem_cons.mp hz with rfl | hz'
        · exact hab rfl
        · obtain ⟨hb, _⟩ := List.pairwise_cons.mp h2
          exact hab (strLtb_eq_of_not (hb a hz') (ha b (List.mem_cons_self b rest)))
      · exact haz

theorem nodup_of_pairwise_ltS {l : List String} (h : l.Pairwise ltS) : l.Nodup :=
  h.imp (fun hab heq => by
    have h' : strLtb _ _ = true := hab
    rw [heq, strLtb_irrefl] at h'
    exact Bool.noConfusion h')

theorem mem_sortUnique (y : String) (l : List String) : y ∈ sortUnique l ↔ y ∈ l := by
  rw [sortUnique, mem_dedupAdj, mem_sortWords]

theorem pairwise_sortUnique (l : List String) : (sortUnique l).Pairwise ltS :=
  pairwise_dedupAdj (sortWords l) (pairwise_sortWords l)

theorem nodup_sortUnique (l : List String) : (sortUnique l).Nodup :=
  nodup_of_pairwise_ltS (pairwise_sortUnique l)

theorem eq_of_pairwise_ltS : ∀ l₁ l₂ : List String, l₁.Pairwise ltS → l₂.Pairwise ltS →
    (∀ x, x ∈ l₁ ↔ x ∈ l₂) → l₁ = l₂
  | [], [], _, _, _ => rfl
  | [], b :: l₂, _, _, hmem => by
    have := (hmem b).mpr (List.mem_cons_self b l₂)
    simp at this
  | a :: l₁, [], _, _, hmem => by
    have := (hmem a).mp (List.mem_cons_self a l₁)
    simp at this
  | a :: l₁, b :: l₂, h₁, h₂, hmem => by
    obtain ⟨ha, h₁'⟩ := List.pairwise_cons.mp h₁
    obtain ⟨hb, h₂'⟩ := List.pairwise_cons.mp h₂
    have hab : a = b := by
      rcases List.mem_cons.mp ((hmem a).mp (List.mem_cons_self a l₁)) with h | h
      · exact h
      · rcases List.mem_cons.mp ((hmem b).mpr (List.mem_cons_self b l₂)) with h' | h'
        · exact h'.symm
        · have h1 := hb a h
          have h2 := strLtb_asymm (ha b h')
          rw [h1] at h2
          exact Bool.noConfusion h2
    subst hab
    have hmem' : ∀ x, x ∈ l₁ ↔ x ∈ l₂ := by
      intro x
      constructor
      · intro hx
        rcases List.mem_cons.mp ((hmem x).mp (List.mem_cons_of_mem a hx)) with rfl | h
        · have h' : strLtb x x = true := ha x hx
          rw [strLtb_irrefl] at h'
          exact Bool.noConfusion h'
        · exact h
      · intro hx
        rcases List.mem_cons.mp ((hmem x).mpr (List.mem_cons_of_mem a hx)) with rfl | h
        · have h' : strLtb x x = true := hb x hx
          rw [strLtb_irrefl] at h'
          exact Bool.noConfusion h'
        · exact h
    rw [eq_of_pairwise_ltS l₁ l₂ h₁' h₂' hmem']

theorem filter_sortUnique (p : String → Bool) (l : List String) :
    (sortUnique l).filter p = sortUnique (l.filter p) :=
  eq_of_pairwise_ltS _ _ ((pairwise_sortUnique l).filter p) (pairwise_sortUnique _)
    (fun x => by simp [List.mem_filter, mem_sortUnique])

theorem any_sortUnique (p : String → Bool) (l : List String) :
    (sortUnique l).any p = l.any p := by
  rw [Bool.eq_iff_iff]
  simp [List.any_eq_true, mem_sortUnique]

theorem lookupKey_mapUpd_self {α β : Type} [DecidableEq α] (k : α) (d : β) (f : β → β) :
    ∀ m : List (α × β), lookupKey (mapUpd m k d f) k = some (f ((lookupKey m k).getD d))
  | [] => by simp [mapUpd, lookupKey]
  | p :: rest => by
    simp only [mapUpd]
    by_cases hpk : p.1 = k
    · rw [if_pos hpk]
      simp [lookupKey, hpk]
    · rw [if_neg hpk]
      simp only [lookupKey, if_neg hpk]
      exact lookupKey_mapUpd_self k d f rest

theorem lookupKey_mapUpd_other {α β : Type} [DecidableEq α] {k k' : α} (h : k' ≠ k)
    (d : β) (f : β → β) :
    ∀ m : List (α × β), lookupKey (mapUpd m k d f) k' = lookupKey m k'
  | [] => by simp [mapUpd, lookupKey, Ne.symm h]
  | p :: rest => by
    simp only [mapUpd]
    by_cases hpk : p.1 = k
    · rw [if_pos hpk]
      simp only [lookupKey, hpk]
      simp [Ne.symm h]
    · rw [if_neg hpk]
      simp only [lookupKey]
      by_cases hpk' : p.1 = k'
      · simp [hpk']
      · simp [hpk', lookupKey_mapUpd_other h d f rest]

theorem lookupKey_eraseKey_self {α β : Type} [DecidableEq α] (k : α) :
    ∀ m : List (α × β), lookupKey (eraseKey m k) k = none
  | [] => rfl
  | p :: rest => by
    simp only [eraseKey]
    by_cases hpk : p.1 = k
    · rw [if_pos hpk]
      exact lookupKey_eraseKey_self k rest
    · rw [if_neg hpk]
      simp only [lookupKey, if_neg hpk]
      exact lookupKey_eraseKey_self k rest

theorem lookupKey_eraseKey_other {α β : Type} [DecidableEq α] {k k' : α} (h : k' ≠ k) :
    ∀ m : List (α × β), lookupKey (eraseKey m k) k' = lookupKey m k'
  | [] => rfl
  | p :: rest => by
    simp only [eraseKey]
    by_cases hpk : p.1 = k
    · rw [if_pos hpk]
      rw [lookupKey_eraseKey_other h rest]
      have : p.1 ≠ k' := by rw [hpk]; exact Ne.symm h
      simp [lookupKey, this]
    · rw [if_neg hpk]
      simp only [lookupKey]
      by_cases hpk' : p.1 = k'
      · simp [hpk']
      · simp [hpk', lookupKey_eraseKey_other h rest]

theorem eraseKey_of_lookup_none {α β : Type} [DecidableEq α] (k : α) :
    ∀ m : List (α × β), lookupKey m k = none → eraseKey m k = m
  | [], _ => rfl
  | p :: rest, h => by
    simp only [lookupKey] at h
    by_cases hpk : p.1 = k
    · rw [if_pos hpk] at h
      exact Option.noConfusion h
    · rw [if_neg hpk] at h
      simp only [eraseKey, if_neg hpk]
      rw [eraseKey_of_lookup_none k rest h]

theorem eraseKey_append {α β : Type} [DecidableEq α] (k : α) :
    ∀ m₁ m₂ : List (α × β), eraseKey (m₁ ++ m₂) k = eraseKey m₁ k ++ eraseKey m₂ k
  | [], m₂ => rfl
  | p :: rest, m₂ => by
    simp only [List.cons_append, eraseKey]
    by_cases hpk : p.1 = k
    · simp [if_pos hpk, eraseKey_append k rest m₂]
    · simp [if_neg hpk, eraseKey_append k rest m₂]

theorem lookupKey_updExisting_self {α β : Type} [DecidableEq α] (k : α) (f : β → β) :
    ∀ m : List (α × β), lookupKey (updExisting m k f) k = (lookupKey m k).map f
  | [] => rfl
  | p :: rest => by
    simp only [updExisting]
    by_cases hpk : p.1 = k
    · rw [if_pos hpk]
      simp [lookupKey, hpk]
    · rw [if_neg hpk]
      simp only [lookupKey, if_neg hpk]
      exact lookupKey_updExisting_self k f rest

theorem lookupKey_updExisting_other {α β : Type} [DecidableEq α] {k k' : α} (h : k' ≠ k)
    (f : β → β) :
    ∀ m : List (α × β), lookupKey (updExisting m k f) k' = lookupKey m k'
  | [] => rfl
  | p :: rest => by
    simp only [updExisting]
    by_cases hpk : p.1 = k
    · rw [if_pos hpk]
      simp only [lookupKey]
      by_cases hpk' : p.1 = k'
      · exact absurd (hpk'.symm.trans hpk) h
      · simp [hpk']
    · rw [if_neg hpk]
      simp only [lookupKey]
      by_cases hpk' : p.1 = k'
      · simp [hpk']
      · simp [hpk', lookupKey_updExisting_other h f rest]

theorem lookupKey_append_none {α β : Type} [DecidableEq α] {k : α} :
    ∀ {m₁ : List (α × β)} (m₂ : List (α × β)), lookupKey m₁ k = none →
      lookupKey (m₁ ++ m₂) k = lookupKey m₂ k
  | [], m₂, _ => rfl
  | p :: rest, m₂, h => by
    simp only [lookupKey] at h
    by_cases hpk : p.1 = k
    · rw [if_pos hpk] at h
      exact Option.noConfusion h
    · rw [if_neg hpk] at h
      show lookupKey ((p :: rest) ++ m₂) k = lookupKey m₂ k
      rw [List.cons_append]
      simp only [lookupKey, if_neg hpk]
      exact lookupKey_append_none m₂ h

theorem lookupKey_append_some {α β : Type} [DecidableEq α] {k : α} :
    ∀ {m₁ : List (α × β)} (m₂ : List (α × β)), (lookupKey m₁ k).isSome →
      lookupKey (m₁ ++ m₂) k = lookupKey m₁ k
  | [], _, h => by simp [lookupKey] at h
  | p :: rest, m₂, h => by
    simp only [lookupKey] at h
    by_cases hpk : p.1 = k
    · show lookupKey ((p :: rest) ++ m₂) k = lookupKey (p :: rest) k
      rw [List.cons_append]
      simp only [lookupKey, if_pos hpk]
    · rw [if_neg hpk] at h
      show lookupKey ((p :: rest) ++ m₂) k = lookupKey (p :: rest) k
      rw [List.cons_append]
      simp only [lookupKey, if_neg hpk]
      exact lookupKey_append_some m₂ h

theorem mem_insertSorted (id x : Int) : ∀ l, x ∈ insertSorted id l ↔ x = id ∨ x ∈ l
  | [] => by simp [insertSorted]
  | y :: ys => by
    simp only [insertSorted]
    by_cases h1 : id < y
    · rw [if_pos h1]
      simp [List.mem_cons]
    · rw [if_neg h1]
      by_cases h2 : id = y
      · rw [if_pos h2]
        subst h2
        simp [List.mem_cons]
      · rw [if_neg h2]
        simp only [List.mem_cons, mem_insertSorted id x ys]
        tauto

theorem pairwise_insertSorted (id : Int) :
    ∀ l, l.Pairwise (· < ·) → (insertSorted id l).Pairwise (· < ·)
  | [], _ => by simp [insertSorted]
  | y :: ys, h => by
    obtain ⟨hy, hys⟩ := List.pairwise_cons.mp h
    simp only [insertSorted]
    by_cases h1 : id < y
    · rw [if_pos h1, List.pairwise_cons]
      refine ⟨fun z hz => ?_, h⟩
      rcases List.mem_cons.mp hz with rfl | hz
      · exact h1
      · exact lt_trans h1 (hy z hz)
    · rw [if_neg h1]
      by_cases h2 : id = y
      · rw [if_pos h2]
        exact h
      · rw [if_neg h2, List.pairwise_cons]
        refine ⟨fun z hz => ?_, pairwise_insertSorted id ys hys⟩
        rw [mem_insertSorted] at hz
        rcases hz with rfl | hz
        · rcases lt_trichotomy z y with hh | hh | hh
          · exact absurd hh h1
          · exact absurd hh h2
          · exact hh
        · exact hy z hz

theorem filter_ne_insertSorted (id : Int) :
    ∀ l, (insertSorted id l).filter (fun i => decide (i ≠ id)) =
      l.filter (fun i => decide (i ≠ id))
  | [] => by simp [insertSorted]
  | y :: ys => by
    simp only [insertSorted]
    by_cases h1 : id < y
    · rw [if_pos h1]
      simp
    · rw [if_neg h1]
      by_cases h2 : id = y
      · rw [if_pos h2]
      · rw [if_neg h2]
        simp only [List.filter_cons]
        rw [filter_ne_insertSorted id ys]

theorem foldRecord_stop_words (id : Int) (inv : ℚ) :
    ∀ (ws : List String) (st : SearchServer),
      (ws.foldl (recordWord id inv) st).stop_words = st.stop_words
  | [], _ => rfl
  | w :: ws, st => by
    rw [List.foldl_cons, foldRecord_stop_words id inv ws]
    rfl

theorem foldRecord_documents (id : Int) (inv : ℚ) :
    ∀ (ws : List String) (st : SearchServer),
      (ws.foldl (recordWord id inv) st).documents = st.documents
  | [], _ => rfl
  | w :: ws, st => by
    rw [List.foldl_cons, foldRecord_documents id inv ws]
    rfl

theorem foldRecord_document_ids (id : Int) (inv : ℚ) :
    ∀ (ws : List String) (st : SearchServer),
      (ws.foldl (recordWord id inv) st).document_ids = st.document_ids
  | [], _ => rfl
  | w :: ws, st => by
    rw [List.foldl_cons, foldRecord_document_ids id inv ws]
    rfl

theorem foldRecord_forward (id : Int) (inv : ℚ) :
    ∀ (ws : List String) (st : SearchServer),
      (ws.foldl (recordWord id inv) st).document_to_word_freqs =
        ws.foldl (fun m w => mapUpd m id [] (fun inner => mapUpd inner w 0 (fun q => q + inv)))
          st.document_to_word_freqs
  | [], _ => rfl
  | w :: ws, st => by
    rw [List.foldl_cons, List.foldl_cons, foldRecord_forward id inv ws]
    rfl

theorem foldRecord_word_map (id : Int) (inv : ℚ) :
    ∀ (ws : List String) (st : SearchServer),
      (ws.foldl (recordWord id inv) st).word_to_document_freqs =
        ws.foldl (fun m w => mapUpd m w [] (fun inner => mapUpd inner id 0 (fun q => q + inv)))
          st.word_to_document_freqs
  | [], _ => rfl
  | w :: ws, st => by
    rw [List.foldl_cons, List.foldl_cons, foldRecord_word_map id inv ws]
    rfl

theorem foldForward_other (id : Int) (inv : ℚ) {i : Int} (hne : i ≠ id) :
    ∀ (ws : List String) (m : List (Int × List (String × ℚ))),
      lookupKey (ws.foldl
        (fun m w => mapUpd m id [] (fun inner => mapUpd inner w 0 (fun q => q + inv))) m) i =
      lookupKey m i
  | [], _ => rfl
  | w :: ws, m => by
    rw [List.foldl_cons, foldForward_other id inv hne ws]
    exact lookupKey_mapUpd_other hne _ _ m

theorem foldForward_self (id : Int) (inv : ℚ) :
    ∀ (ws : List String) (m : List (Int × List (String × ℚ))),
      lookupKey (ws.foldl
        (fun m w => mapUpd m id [] (fun inner => mapUpd inner w 0 (fun q => q + inv))) m) id =
      if ws = [] then lookupKey m id
      else some (ws.foldl (fun inner w => mapUpd inner w 0 (fun q => q + inv))
        ((lookupKey m id).getD []))
  | [], _ => by simp
  | w :: ws, m => by
    rw [List.foldl_cons, foldForward_self id inv ws]
    by_cases hws : ws = []
    · subst hws
      simp only [if_pos rfl, List.foldl_cons, List.foldl_nil]
      rw [lookupKey_mapUpd_self]
      simp
    · rw [if_neg hws, if_neg (List.cons_ne_nil w ws)]
      rw [lookupKey_mapUpd_self]
      simp

theorem lookup_innerfold (inv : ℚ) (w : String) :
    ∀ (ws : List String) (m0 : List (String × ℚ)),
      lookupKey (ws.foldl (fun inner x => mapUpd inner x 0 (fun q => q + inv)) m0) w =
        if w ∈ ws ∨ (lookupKey m0 w).isSome
        then some ((lookupKey m0 w).getD 0 + (ws.count w) * inv)
        else none
  | [], m0 => by
    cases ho : lookupKey m0 w
    · simp [ho]
    · simp [ho]
  | w' :: ws, m0 => by
    rw [List.foldl_cons, lookup_innerfold inv w ws]
    by_cases hww : w = w'
    · subst hww
      rw [lookupKey_mapUpd_self]
      have hcount : (w :: ws).count w = ws.count w + 1 := by
        simp [List.count_cons]
      simp only [List.mem_cons, true_or, Option.isSome_some, or_true, if_pos, hcount]
      congr 1
      simp only [Option.getD_some]
      push_cast
      ring
    · rw [lookupKey_mapUpd_other hww]
      have hcount : (w' :: ws).count w = ws.count w := by
        simp [List.count_cons, Ne.symm hww]
      have hmem : (w ∈ w' :: ws ∨ (lookupKey m0 w).isSome) ↔ (w ∈ ws ∨ (lookupKey m0 w).isSome) := by
        simp [List.mem_cons, hww]
      rw [hcount]
      by_cases hc : w ∈ ws ∨ (lookupKey m0 w).isSome
      · rw [if_pos hc, if_pos (hmem.mpr hc)]
      · rw [if_neg hc, if_neg (fun hh => hc (hmem.mp hh))]

theorem sumValues_mapUpd (k : String) (inv : ℚ) :
    ∀ m : List (String × ℚ), sumValues (mapUpd m k 0 (fun q => q + inv)) = sumValues m + inv
  | [] => by simp [mapUpd, sumValues]
  | p :: rest => by
    simp only [mapUpd]
    by_cases hpk : p.1 = k
    · rw [if_pos hpk]
      simp only [sumValues, List.map_cons, List.sum_cons]
      ring
    · rw [if_neg hpk]
      show sumValues (p :: mapUpd rest k 0 (fun q => q + inv)) = sumValues (p :: rest) + inv
      simp only [sumValues, List.map_cons, List.sum_cons]
      have hrec := sumValues_mapUpd k inv rest
      simp only [sumValues] at hrec
      rw [hrec]
      ring

theorem sumValues_innerfold (inv : ℚ) :
    ∀ (ws : List String) (m0 : List (String × ℚ)),
      sumValues (ws.foldl (fun inner x => mapUpd inner x 0 (fun q => q + inv)) m0) =
        sumValues m0 + ws.length * inv
  | [], m0 => by simp
  | w :: ws, m0 => by
    rw [List.foldl_cons, sumValues_innerfold inv ws, sumValues_mapUpd]
    simp only [List.length_cons]
    push_cast
    ring

theorem keys_mapUpd_sub {α β : Type} [DecidableEq α] (k : α) (d : β) (f : β → β) :
    ∀ (m : List (α × β)) (x : α), x ∈ (mapUpd m k d f).map Prod.fst →
      x ∈ m.map Prod.fst ∨ x = k
  | [], x, h => by
    simp [mapUpd] at h
    exact Or.inr h
  | p :: rest, x, h => by
    simp only [mapUpd] at h
    by_cases hpk : p.1 = k
    · rw [if_pos hpk] at h
      simp only [List.map_cons, List.mem_cons] at h ⊢
      tauto
    · rw [if_neg hpk] at h
      simp only [List.map_cons, List.mem_cons] at h ⊢
      rcases h with h | h
      · tauto
      · rcases keys_mapUpd_sub k d f rest x h with hh | hh
        · tauto
        · tauto

theorem keys_nodup_mapUpd {α β : Type} [DecidableEq α] (k : α) (d : β) (f : β → β) :
    ∀ m : List (α × β), (m.map Prod.fst).Nodup → ((mapUpd m k d f).map Prod.fst).Nodup
  | [], _ => by simp [mapUpd]
  | p :: rest, h => by
    simp only [List.map_cons, List.nodup_cons] at h
    obtain ⟨hp, hrest⟩ := h
    simp only [mapUpd]
    by_cases hpk : p.1 = k
    · rw [if_pos hpk]
      simp only [List.map_cons, List.nodup_cons]
      exact ⟨hp, hrest⟩
    · rw [if_neg hpk]
      simp only [List.map_cons, List.nodup_cons]
      refine ⟨fun hmem => ?_, keys_nodup_mapUpd k d f rest hrest⟩
      rcases keys_mapUpd_sub k d f rest p.1 hmem with hh | hh
      · exact hp hh
      · exact hpk hh

theorem lookup_eq_of_mem_nodup {α β : Type} [DecidableEq α] :
    ∀ m : List (α × β), (m.map Prod.fst).Nodup → ∀ p ∈ m, lookupKey m p.1 = some p.2
  | [], _, p, hp => absurd hp (List.not_mem_nil p)
  | q :: rest, h, p, hp => by
    simp only [List.map_cons, List.nodup_cons] at h
    obtain ⟨hq, hrest⟩ := h
    rcases List.mem_cons.mp hp with rfl | hp'
    · simp [lookupKey]
    · have hne : q.1 ≠ p.1 := by
        intro heq
        exact hq (heq ▸ List.mem_map_of_mem Prod.fst hp')
      simp only [lookupKey, if_neg hne]
      exact lookup_eq_of_mem_nodup rest hrest p hp'

theorem splitAux_ne_nil : ∀ (cs acc : List Char), splitAux cs acc ≠ []
  | [], acc => by simp [splitAux]
  | c :: cs, acc => by
    simp only [splitAux]
    by_cases h : c = ' '
    · rw [if_pos h]
      exact List.cons_ne_nil _ _
    · rw [if_neg h]
      exact splitAux_ne_nil cs (c :: acc)

theorem joinWords_cons_cons (w x : String) (xs : List String) :
    joinWords (w :: x :: xs) = w ++ " " ++ joinWords (x :: xs) := rfl

theorem joinWords_splitAux :
    ∀ (cs acc : List Char), (joinWords ((splitAux cs acc).map String.mk)).data = acc.reverse ++ cs
  | [], acc => by
    simp [splitAux, joinWords]
  | c :: cs, acc => by
    simp only [splitAux]
    by_cases h : c = ' '
    · rw [if_pos h]
      obtain ⟨x, xs, hx⟩ := List.exists_cons_of_ne_nil
        (fun hh => splitAux_ne_nil cs [] (List.map_eq_nil_iff.mp hh : splitAux cs [] = []))
      · rw [List.map_cons, hx, joinWords_cons_cons, String.data_append, String.data_append]
        have hrec := joinWords_splitAux cs []
        rw [hx] at hrec
        simp only [List.reverse_nil, List.nil_append] at hrec
        rw [hrec]
        subst h
        simp
    · rw [if_neg h]
      rw [joinWords_splitAux cs (c :: acc)]
      simp

theorem splitAux_no_space :
    ∀ (cs acc : List Char), (∀ c ∈ acc, c ≠ ' ') →
      ∀ l ∈ splitAux cs acc, ∀ c ∈ l, c ≠ ' '
  | [], acc, hacc => by
    simp only [splitAux, List.mem_singleton]
    rintro l rfl c hc
    exact hacc c (List.mem_reverse.mp hc)
  | c :: cs, acc, hacc => by
    simp only [splitAux]
    by_cases h : c = ' '
    · rw [if_pos h]
      rintro l hl
      rcases List.mem_cons.mp hl with rfl | hl'
      · intro d hd
        exact hacc d (List.mem_reverse.mp hd)
      · exact splitAux_no_space cs [] (by simp) l hl'
    · rw [if_neg h]
      refine splitAux_no_space cs (c :: acc) ?_
      intro d hd
      rcases List.mem_cons.mp hd with rfl | hd'
      · exact h
      · exact hacc d hd'

/-- C5 counterexample: the claim says empty input yields an empty token
sequence and only non-empty substrings are produced, but `SplitIntoWords`
pushes every segment, so the empty string tokenizes to one empty token. -/
theorem c5_tokenizer_counterexample :
    SplitIntoWords "" = [""] ∧ SplitIntoWords "" ≠ [] ∧ "" ∈ SplitIntoWords "" := by
  decide

/-- C5 (amended): the tokenizer splits on every single space and emits every
segment, including empty ones, in order: joining the tokens back with single
spaces recovers the input exactly, no token contains a space, and the token
list is never empty (empty input yields one empty token). -/
theorem c5_tokenizer_amended (text : String) :
    joinWords (SplitIntoWords text) = text ∧
    SplitIntoWords text ≠ [] ∧
    ∀ w ∈ SplitIntoWords text, ∀ c ∈ w.data, c ≠ ' ' := by
  refine ⟨?_, ?_, ?_⟩
  · apply String.ext
    rw [SplitIntoWords, joinWords_splitAux]
    simp
  · rw [SplitIntoWords]
    intro h
    exact splitAux_ne_nil text.data [] (List.map_eq_nil_iff.mp h)
  · rw [SplitIntoWords]
    intro w hw c hc
    obtain ⟨l, hl, rfl⟩ := List.mem_map.mp hw
    exact splitAux_no_space text.data [] (by simp) l hl c hc

/-- C5 witness: evaluating the amended characterisation on a concrete text. -/
theorem c5_witness : joinWords (SplitIntoWords "a  b ") = "a  b " :=
  (c5_tokenizer_amended "a  b ").1

/-- C3: inserting a negative or already-present document id fails with
`InvalidDocumentId` and leaves the whole server state unchanged. -/
theorem c3_invalid_id_insert_rejected (s : SearchServer) (document_id : Int) (document : String)
    (status : DocumentStatus) (ratings : List Int)
    (h : document_id < 0 ∨ (lookupKey s.documents document_id).isSome) :
    AddDocument s document_id document status ratings = (s, some Err.invalidDocumentId) := by
  unfold AddDocument
  rw [if_pos h]

/-- C3 witness: a negative id on a fresh server is rejected without
mutation. -/
theorem c3_witness :
    AddDocument (initServer []) (-1) "x" DocumentStatus.active [] =
      (initServer [], some Err.invalidDocumentId) :=
  c3_invalid_id_insert_rejected (initServer []) (-1) "x" DocumentStatus.active []
    (Or.inl (by decide))

/-- C1 (code bug evidence): inserting a document whose text contains a
control character throws `InvalidWord`, and the posting maps and id set stay
empty, but the metadata map `documents_` retains the new entry (it is
emplaced before token validation), so `GetDocumentCount()` reports `1` on a
previously empty server — the state is NOT left unmodified. -/
theorem c1_insert_not_atomic_on_invalid_word :
    (AddDocument (initServer []) 0 "a\x01b" DocumentStatus.active []).2 = some Err.invalidWord ∧
    GetDocumentCount (AddDocument (initServer []) 0 "a\x01b" DocumentStatus.active []).1 = 1 ∧
    GetDocumentCount (initServer []) = 0 ∧
    lookupKey (AddDocument (initServer []) 0 "a\x01b" DocumentStatus.active []).1.documents 0 =
      some ⟨0, DocumentStatus.active, "a\x01b"⟩ ∧
    documentIds (AddDocument (initServer []) 0 "a\x01b" DocumentStatus.active []).1 = [] ∧
    (AddDocument (initServer []) 0 "a\x01b" DocumentStatus.active []).1.word_to_document_freqs = [] ∧
    (AddDocument (initServer []) 0 "a\x01b" DocumentStatus.active []).1.document_to_word_freqs = [] := by
  decide

theorem filterValidNoStop_congr {s₁ s₂ : SearchServer} (h : s₁.stop_words = s₂.stop_words) :
    ∀ l, filterValidNoStop s₁ l = filterValidNoStop s₂ l
  | [] => rfl
  | w :: ws => by
    simp only [filterValidNoStop]
    rw [filterValidNoStop_congr h ws]
    simp [IsStopWord, h]

theorem filterValidNoStop_all_stop (s : SearchServer) :
    ∀ l, (∀ w ∈ l, IsValidWord w = true ∧ IsStopWord s w = true) →
      filterValidNoStop s l = .ok []
  | [], _ => rfl
  | w :: ws, h => by
    obtain ⟨hv, hs⟩ := h w (List.mem_cons_self w ws)
    simp only [filterValidNoStop, hv, if_true]
    rw [filterValidNoStop_all_stop s ws (fun x hx => h x (List.mem_cons_of_mem w hx))]
    simp [hs]

/-- C10: a document whose every token is a (valid) stop word inserts
successfully under a fresh non-negative id: no error, the document count
grows by one, the id appears among the document ids, and its term-frequency
map is empty. -/
theorem c10_empty_document_insert (s : SearchServer) (document_id : Int) (document : String)
    (status : DocumentStatus) (ratings : List Int)
    (hid : ¬ document_id < 0)
    (hfresh : lookupKey s.documents document_id = none)
    (hforward : lookupKey s.document_to_word_freqs document_id = none)
    (hstops : ∀ w ∈ SplitIntoWords document, IsValidWord w = true ∧ IsStopWord s w = true) :
    (AddDocument s document_id document status ratings).2 = none ∧
    GetDocumentCount (AddDocument s document_id document status ratings).1 =
      GetDocumentCount s + 1 ∧
    document_id ∈ documentIds (AddDocument s document_id document status ratings).1 ∧
    GetWordFrequencies (AddDocument s document_id document status ratings).1 document_id = [] := by
  have hcond : ¬ (document_id < 0 ∨ (lookupKey s.documents document_id).isSome) := by
    simp [hid, hfresh]
  have hsw : ({ s with documents :=
      s.documents ++ [(document_id, ⟨ComputeAverageRating ratings, status, document⟩)] }
        : SearchServer).stop_words = s.stop_words := rfl
  have hsplit : SplitIntoWordsNoStop
      { s with documents :=
          s.documents ++ [(document_id, ⟨ComputeAverageRating ratings, status, document⟩)] }
      document = .ok [] := by
    rw [SplitIntoWordsNoStop, filterValidNoStop_congr hsw]
    exact filterValidNoStop_all_stop s _ hstops
  simp only [AddDocument]
  rw [if_neg hcond]
  simp only [hsplit, List.foldl_nil]
  refine ⟨by trivial, ?_, ?_, ?_⟩
  · simp [GetDocumentCount]
  · exact (mem_insertSorted document_id document_id _).mpr (Or.inl rfl)
  · simp [GetWordFrequencies, hforward]

/-- C10 witness: inserting a document consisting only of the stop word
`the` on a fresh server. -/
theorem c10_witness :
    (AddDocument (initServer ["the"]) 5 "the the" DocumentStatus.active []).2 = none ∧
    GetDocumentCount (AddDocument (initServer ["the"]) 5 "the the" DocumentStatus.active []).1 =
      GetDocumentCount (initServer ["the"]) + 1 ∧
    (5 : Int) ∈ documentIds (AddDocument (initServer ["the"]) 5 "the the" DocumentStatus.active []).1 ∧
    GetWordFrequencies (AddDocument (initServer ["the"]) 5 "the the" DocumentStatus.active []).1 5 = [] :=
  c10_empty_document_insert (initServer ["the"]) 5 "the the" DocumentStatus.active []
    (by decide) (by decide) (by decide) (by decide)

theorem ParseQueryWord_is_stop (s : SearchServer) (word : String) (qw : QueryWord)
    (h : ParseQueryWord s word = .ok qw) : qw.is_stop = IsStopWord s qw.data := by
  simp only [ParseQueryWord] at h
  repeat' first
    | exact Except.noConfusion h
    | (injection h with h'; rw [← h'])
    | split at h

theorem parseTokens_no_stop (s : SearchServer) :
    ∀ (l : List String) (q : Query), parseTokens s l = .ok q →
      (∀ w ∈ q.plus_words, IsStopWord s w = false) ∧
      (∀ w ∈ q.minus_words, IsStopWord s w = false)
  | [], q, h => by
    simp only [parseTokens] at h
    injection h with h'
    rw [← h']
    simp
  | w :: ws, q, h => by
    simp only [parseTokens] at h
    cases hpw : ParseQueryWord s w with
    | error e =>
      rw [hpw] at h
      exact Except.noConfusion h
    | ok qw =>
      rw [hpw] at h
      cases hrec : parseTokens s ws with
      | error e =>
        rw [hrec] at h
        exact Except.noConfusion h
      | ok q0 =>
        rw [hrec] at h
        obtain ⟨hp, hm⟩ := parseTokens_no_stop s ws q0 hrec
        injection h with h'
        have hqs := ParseQueryWord_is_stop s w qw hpw
        by_cases hstop : qw.is_stop
        · rw [if_pos hstop] at h'
          rw [← h']
          exact ⟨hp, hm⟩
        · rw [if_neg hstop] at h'
          have hdata : IsStopWord s qw.data = false := by
            rw [← hqs]
            exact Bool.not_eq_true _ ▸ (Bool.eq_false_iff.mpr hstop)
          by_cases hminus : qw.is_minus
          · rw [if_pos hminus] at h'
            rw [← h']
            refine ⟨hp, fun x hx => ?_⟩
            rcases List.mem_cons.mp hx with rfl | hx'
            · exact hdata
            · exact hm x hx'
          · rw [if_neg hminus] at h'
            rw [← h']
            refine ⟨fun x hx => ?_, hm⟩
            rcases List.mem_cons.mp hx with rfl | hx'
            · exact hdata
            · exact hp x hx'

/-- C8 counterexample: the claim says the plus- and minus-term sets are
disjoint, but parsing `"a -a"` yields the term `a` in both sets. -/
theorem c8_disjointness_counterexample :
    ParseQuery (initServer []) "a -a" false = .ok ⟨["a"], ["a"]⟩ ∧
    ¬ (["a"] : List String).Disjoint ["a"] := by
  constructor
  · rfl
  · intro h
    exact h (List.mem_singleton.mpr rfl) (List.mem_singleton.mpr rfl)

/-- C8 (amended): for every raw query that parses without error, each of the
plus-word and minus-word lists is deduplicated and contains no stop word;
the two sets however need NOT be disjoint (a term can occur both bare and
with a leading minus). -/
theorem c8_parsed_query_amended (s : SearchServer) (text : String) (q : Query)
    (h : ParseQuery s text false = .ok q) :
    q.plus_words.Nodup ∧ q.minus_words.Nodup ∧
    (∀ w ∈ q.plus_words, IsStopWord s w = false) ∧
    (∀ w ∈ q.minus_words, IsStopWord s w = false) := by
  simp only [ParseQuery] at h
  cases hrec : parseTokens s (SplitIntoWords text) with
  | error e =>
    rw [hrec] at h
    exact Except.noConfusion h
  | ok q0 =>
    rw [hrec] at h
    simp only [Bool.false_eq_true, if_false] at h
    injection h with h'
    obtain ⟨hp, hm⟩ := parseTokens_no_stop s (SplitIntoWords text) q0 hrec
    rw [← h']
    refine ⟨nodup_sortUnique _, nodup_sortUnique _, fun w hw => ?_, fun w hw => ?_⟩
    · exact hp w ((mem_sortUnique w _).mp hw)
    · exact hm w ((mem_sortUnique w _).mp hw)

/-- C8 witness: the amended structure evaluated on the query `"a -a b b"`
over a server whose stop words are `["the"]`. -/
theorem c8_witness :
    (⟨["a", "b"], ["a"]⟩ : Query).plus_words.Nodup ∧
    (⟨["a", "b"], ["a"]⟩ : Query).minus_words.Nodup ∧
    (∀ w ∈ (⟨["a", "b"], ["a"]⟩ : Query).plus_words, IsStopWord (initServer ["the"]) w = false) ∧
    (∀ w ∈ (⟨["a", "b"], ["a"]⟩ : Query).minus_words, IsStopWord (initServer ["the"]) w = false) :=
  c8_parsed_query_amended (initServer ["the"]) "a -a b b" ⟨["a", "b"], ["a"]⟩ (by rfl)

theorem ParseQuery_false_sorted (s : SearchServer) (text : String) (q : Query)
    (h : ParseQuery s text false = .ok q) :
    q.plus_words.Pairwise ltS ∧ q.minus_words.Pairwise ltS := by
  simp only [ParseQuery] at h
  cases hrec : parseTokens s (SplitIntoWords text) with
  | error e =>
    rw [hrec] at h
    exact Except.noConfusion h
  | ok q0 =>
    rw [hrec] at h
    simp only [Bool.false_eq_true, if_false] at h
    injection h with h'
    rw [← h']
    exact ⟨pairwise_sortUnique _, pairwise_sortUnique _⟩

/-- C6: for every query that parses without error, `MatchDocument`
(sequenced) fails with `UnknownDocument` when the id is absent; otherwise,
when some minus word has a posting for the id it returns the empty term list
with the document's status, and when no minus word does it returns the
strictly sorted, duplicate-free list of exactly the plus words that have a
posting for the id, with the status. -/
theorem c6_match_document_contract (s : SearchServer) (raw_query : String) (document_id : Int)
    (q : Query) (hq : ParseQuery s raw_query false = .ok q) :
    (lookupKey s.documents document_id = none →
      MatchDocumentSeq s raw_query document_id = .error .unknownDocument) ∧
    ∀ data, lookupKey s.documents document_id = some data →
      ((∃ w ∈ q.minus_words, hasPosting s w document_id = true) →
        MatchDocumentSeq s raw_query document_id = .ok ([], data.status)) ∧
      ((∀ w ∈ q.minus_words, hasPosting s w document_id = false) →
        ∃ l, MatchDocumentSeq s raw_query document_id = .ok (l, data.status) ∧
          l.Pairwise ltS ∧ l.Nodup ∧
          ∀ w, w ∈ l ↔ w ∈ q.plus_words ∧ hasPosting s w document_id = true) := by
  obtain ⟨hsortp, _⟩ := ParseQuery_false_sorted s raw_query q hq
  constructor
  · intro hnone
    simp only [MatchDocumentSeq, hq, hnone]
  · intro data hdata
    constructor
    · intro ⟨w, hw, hpost⟩
      have hany : q.minus_words.any (fun w => hasPosting s w document_id) = true :=
        List.any_eq_true.mpr ⟨w, hw, hpost⟩
      simp only [MatchDocumentSeq, hq, hdata, hany, if_true]
    · intro hall
      have hany : q.minus_words.any (fun w => hasPosting s w document_id) = false :=
        List.any_eq_false.mpr (fun x hx => by rw [hall x hx]; exact Bool.false_ne_true)
      refine ⟨q.plus_words.filter (fun w => hasPosting s w document_id), ?_, ?_, ?_, ?_⟩
      · simp only [MatchDocumentSeq, hq, hdata, hany, Bool.false_eq_true, if_false]
      · exact hsortp.filter _
      · exact nodup_of_pairwise_ltS (hsortp.filter _)
      · intro w
        simp [List.mem_filter]

/-- C6 witness: matching the query `"b a -z"` against a two-document index
at id `0` returns the sorted matched plus words `["a"]` with the status. -/
theorem c6_witness :
    ∃ l, MatchDocumentSeq
        ⟨[], [("a", [(0, 1)]), ("c", [(1, 1)])], [(0, [("a", 1)]), (1, [("c", 1)])],
          [(0, ⟨0, DocumentStatus.active, "a"⟩), (1, ⟨0, DocumentStatus.active, "c"⟩)], [0, 1]⟩
        "b a -z" 0 = .ok (l, DocumentStatus.active) ∧
      l.Pairwise ltS ∧ l.Nodup ∧
      ∀ w, w ∈ l ↔ w ∈ (⟨["a", "b"], ["z"]⟩ : Query).plus_words ∧
        hasPosting
          ⟨[], [("a", [(0, 1)]), ("c", [(1, 1)])], [(0, [("a", 1)]), (1, [("c", 1)])],
            [(0, ⟨0, DocumentStatus.active, "a"⟩), (1, ⟨0, DocumentStatus.active, "c"⟩)], [0, 1]⟩
          w 0 = true :=
  ((c6_match_document_contract
      ⟨[], [("a", [(0, 1)]), ("c", [(1, 1)])], [(0, [("a", 1)]), (1, [("c", 1)])],
        [(0, ⟨0, DocumentStatus.active, "a"⟩), (1, ⟨0, DocumentStatus.active, "c"⟩)], [0, 1]⟩
      "b a -z" 0 ⟨["a", "b"], ["z"]⟩ (by rfl)).2
    ⟨0, DocumentStatus.active, "a"⟩ (by rfl)).2 (by decide)

theorem match_seq_par (s : SearchServer) (raw_query : String) (document_id : Int) :
    MatchDocumentSeq s raw_query document_id = MatchDocumentPar s raw_query document_id := by
  cases hp : parseTokens s (SplitIntoWords raw_query) with
  | error e =>
    simp only [MatchDocumentSeq, MatchDocumentPar, ParseQuery, hp]
  | ok q0 =>
    simp only [MatchDocumentSeq, MatchDocumentPar, ParseQuery, hp, Bool.false_eq_true,
      if_false, if_true]
    cases hd : lookupKey s.documents document_id with
    | none => rfl
    | some data =>
      simp only [any_sortUnique]
      by_cases hany : q0.minus_words.any (fun w => hasPosting s w document_id) = true
      · simp only [hany, if_true]
      · simp only [hany, if_false, filter_sortUnique]

theorem remove_seq_par (s : SearchServer) (document_id : Int) :
    RemoveDocumentSeq s document_id = RemoveDocumentPar s document_id := by
  cases h : lookupKey s.document_to_word_freqs document_id with
  | none =>
    simp only [RemoveDocumentSeq, RemoveDocumentPar, h]
  | some wordFreqs =>
    simp only [RemoveDocumentSeq, RemoveDocumentPar, h, List.foldl_map]

/-- C7: the sequenced and parallel variants of `MatchDocument` agree on
every server state, query text and document id (including the error cases),
and the sequenced and parallel variants of `RemoveDocument` produce the
identical post-removal server state. -/
theorem c7_seq_par_equivalence :
    (∀ (s : SearchServer) (raw_query : String) (document_id : Int),
      MatchDocumentSeq s raw_query document_id = MatchDocumentPar s raw_query document_id) ∧
    (∀ (s : SearchServer) (document_id : Int),
      RemoveDocumentSeq s document_id = RemoveDocumentPar s document_id) :=
  ⟨match_seq_par, remove_seq_par⟩

/-- C7 witness: both equivalences evaluated at a concrete state, query and
id. -/
theorem c7_witness :
    MatchDocumentSeq (initServer []) "a -b" 0 = MatchDocumentPar (initServer []) "a -b" 0 ∧
    RemoveDocumentSeq (initServer []) 0 = RemoveDocumentPar (initServer []) 0 :=
  ⟨c7_seq_par_equivalence.1 (initServer []) "a -b" 0,
   c7_seq_par_equivalence.2 (initServer []) 0⟩

theorem eraseKey_idem {α β : Type} [DecidableEq α] (k : α) :
    ∀ m : List (α × β), eraseKey (eraseKey m k) k = eraseKey m k
  | [] => rfl
  | p :: rest => by
    simp only [eraseKey]
    by_cases hpk : p.1 = k
    · rw [if_pos hpk]
      exact eraseKey_idem k rest
    · rw [if_neg hpk]
      simp only [eraseKey, if_neg hpk]
      rw [eraseKey_idem k rest]

theorem lookup_isSome_iff_mem_keys {α β : Type} [DecidableEq α] :
    ∀ (m : List (α × β)) (k : α), (lookupKey m k).isSome ↔ k ∈ m.map Prod.fst
  | [], k => by simp [lookupKey]
  | p :: rest, k => by
    simp only [lookupKey, List.map_cons, List.mem_cons]
    by_cases hpk : p.1 = k
    · simp [hpk]
    · rw [if_neg hpk]
      rw [lookup_isSome_iff_mem_keys rest k]
      constructor
      · intro hh
        exact Or.inr hh
      · intro hh
        rcases hh with hh | hh
        · exact absurd hh.symm hpk
        · exact hh

theorem foldWordMap_other (id : Int) (inv : ℚ) {w : String} :
    ∀ (ws : List String) (m : List (String × List (Int × ℚ))), w ∉ ws →
      lookupKey (ws.foldl
        (fun m x => mapUpd m x [] (fun inner => mapUpd inner id 0 (fun q => q + inv))) m) w =
      lookupKey m w
  | [], _, _ => rfl
  | x :: ws, m, h => by
    rw [List.foldl_cons,
      foldWordMap_other id inv ws _ (fun hh => h (List.mem_cons_of_mem x hh))]
    have hwx : w ≠ x := fun he => h (by rw [he]; exact List.mem_cons_self x ws)
    exact lookupKey_mapUpd_other hwx _ _ m

theorem foldWordMap_mem (id : Int) (inv : ℚ) {w : String} :
    ∀ (ws : List String) (m : List (String × List (Int × ℚ))), w ∈ ws →
      ∃ inner,
        lookupKey (ws.foldl
          (fun m x => mapUpd m x [] (fun inner => mapUpd inner id 0 (fun q => q + inv))) m) w =
          some inner ∧
        ∀ d : Int, d ≠ id →
          lookupKey inner d = lookupKey ((lookupKey m w).getD []) d
  | [], _, h => absurd h (List.not_mem_nil w)
  | x :: ws, m, h => by
    rw [List.foldl_cons]
    by_cases hmem : w ∈ ws
    · obtain ⟨inner, hlook, hother⟩ := foldWordMap_mem id inv ws
        (mapUpd m x [] (fun inner => mapUpd inner id 0 (fun q => q + inv))) hmem
      refine ⟨inner, hlook, fun d hd => ?_⟩
      rw [hother d hd]
      by_cases hwx : w = x
      · subst hwx
        rw [lookupKey_mapUpd_self]
        simp only [Option.getD_some]
        rw [lookupKey_mapUpd_other hd]
      · rw [lookupKey_mapUpd_other hwx]
    · have hwx : w = x := by
        rcases List.mem_cons.mp h with hh | hh
        · exact hh
        · exact absurd hh hmem
      subst hwx
      rw [foldWordMap_other id inv ws _ hmem]
      rw [lookupKey_mapUpd_self]
      refine ⟨_, rfl, fun d hd => ?_⟩
      rw [lookupKey_mapUpd_other hd]

theorem foldErase_other (id : Int) {w : String} :
    ∀ (ps : List (String × ℚ)) (m : List (String × List (Int × ℚ))),
      w ∉ ps.map Prod.fst →
      lookupKey (ps.foldl
        (fun m p => updExisting m p.1 (fun inner => eraseKey inner id)) m) w = lookupKey m w
  | [], _, _ => rfl
  | p :: ps, m, h => by
    simp only [List.map_cons, List.mem_cons] at h
    push_neg at h
    rw [List.foldl_cons, foldErase_other id ps _ h.2]
    exact lookupKey_updExisting_other h.1 _ m

theorem foldErase_mem (id : Int) {w : String} :
    ∀ (ps : List (String × ℚ)) (m : List (String × List (Int × ℚ))),
      w ∈ ps.map Prod.fst →
      lookupKey (ps.foldl
        (fun m p => updExisting m p.1 (fun inner => eraseKey inner id)) m) w =
        (lookupKey m w).map (fun inner => eraseKey inner id)
  | [], _, h => absurd h (List.not_mem_nil w)
  | p :: ps, m, h => by
    rw [List.foldl_cons]
    by_cases hmem : w ∈ ps.map Prod.fst
    · rw [foldErase_mem id ps _ hmem]
      by_cases hpw : p.1 = w
      · subst hpw
        rw [lookupKey_updExisting_self]
        cases ho : lookupKey m p.1 with
        | none => rfl
        | some v =>
          show some (eraseKey (eraseKey v id) id) = some (eraseKey v id)
          rw [eraseKey_idem]
      · rw [lookupKey_updExisting_other (fun he => hpw he.symm)]
    · have hpw : p.1 = w := by
        simp only [List.map_cons, List.mem_cons] at h
        rcases h with hh | hh
        · exact hh.symm
        · exact absurd hh hmem
      subst hpw
      rw [foldErase_other id ps _ hmem]
      rw [lookupKey_updExisting_self]

theorem foldEraseServer_word_map (id : Int) :
    ∀ (ps : List (String × ℚ)) (st : SearchServer),
      (ps.foldl (fun st p =>
        { st with word_to_document_freqs :=
            updExisting st.word_to_document_freqs p.1 (fun m => eraseKey m id) }) st
        ).word_to_document_freqs =
      ps.foldl (fun m p => updExisting m p.1 (fun inner => eraseKey inner id))
        st.word_to_document_freqs
  | [], _ => rfl
  | p :: ps, st => by
    rw [List.foldl_cons, List.foldl_cons, foldEraseServer_word_map id ps]

theorem foldEraseServer_documents (id : Int) :
    ∀ (ps : List (String × ℚ)) (st : SearchServer),
      (ps.foldl (fun st p =>
        { st with word_to_document_freqs :=
            updExisting st.word_to_document_freqs p.1 (fun m => eraseKey m id) }) st
        ).documents = st.documents
  | [], _ => rfl
  | p :: ps, st => by
    rw [List.foldl_cons, foldEraseServer_documents id ps]

theorem foldEraseServer_document_ids (id : Int) :
    ∀ (ps : List (String × ℚ)) (st : SearchServer),
      (ps.foldl (fun st p =>
        { st with word_to_document_freqs :=
            updExisting st.word_to_document_freqs p.1 (fun m => eraseKey m id) }) st
        ).document_ids = st.document_ids
  | [], _ => rfl
  | p :: ps, st => by
    rw [List.foldl_cons, foldEraseServer_document_ids id ps]

theorem foldEraseServer_forward (id : Int) :
    ∀ (ps : List (String × ℚ)) (st : SearchServer),
      (ps.foldl (fun st p =>
        { st with word_to_document_freqs :=
            updExisting st.word_to_document_freqs p.1 (fun m => eraseKey m id) }) st
        ).document_to_word_freqs = st.document_to_word_freqs
  | [], _ => rfl
  | p :: ps, st => by
    rw [List.foldl_cons, foldEraseServer_forward id ps]

/-- C2 (amended): for a valid fresh document whose text has at least one
non-stop token, `Insert` followed by `Remove` restores the document count,
the document ids, and every (term, document) posting membership; and removal
of an id with no forward posting entry is an exact no-op.  (The claim as
stated fails for a valid document whose tokens are all stop words: it
inserts but cannot be removed — see the counterexample.) -/
theorem c2_insert_remove_round_trip (s : SearchServer) (document_id : Int) (document : String)
    (status : DocumentStatus) (ratings : List Int) (ws : List String)
    (hid : ¬ document_id < 0)
    (hdocs : lookupKey s.documents document_id = none)
    (hids : document_id ∉ s.document_ids)
    (hforward : lookupKey s.document_to_word_freqs document_id = none)
    (hpost : ∀ w, hasPosting s w document_id = false)
    (hsplit0 : SplitIntoWordsNoStop s document = .ok ws)
    (hne : ws ≠ []) :
    ((AddDocument s document_id document status ratings).2 = none ∧
     GetDocumentCount (RemoveDocumentSeq
       (AddDocument s document_id document status ratings).1 document_id) =
       GetDocumentCount s ∧
     documentIds (RemoveDocumentSeq
       (AddDocument s document_id document status ratings).1 document_id) = documentIds s ∧
     ∀ (w : String) (d : Int),
       hasPosting (RemoveDocumentSeq
         (AddDocument s document_id document status ratings).1 document_id) w d =
         hasPosting s w d) ∧
    (∀ (s₂ : SearchServer) (id₂ : Int), lookupKey s₂.document_to_word_freqs id₂ = none →
      RemoveDocumentSeq s₂ id₂ = s₂) := by
  have hcond : ¬ (document_id < 0 ∨ (lookupKey s.documents document_id).isSome) := by
    simp [hid, hdocs]
  have hsw1 : ({ s with documents :=
      s.documents ++ [(document_id, ⟨ComputeAverageRating ratings, status, document⟩)] }
        : SearchServer).stop_words = s.stop_words := rfl
  have hsplit1 : SplitIntoWordsNoStop
      { s with documents :=
          s.documents ++ [(document_id, ⟨ComputeAverageRating ratings, status, document⟩)] }
      document = .ok ws := by
    rw [SplitIntoWordsNoStop, filterValidNoStop_congr hsw1]
    exact hsplit0
  have herr : (AddDocument s document_id document status ratings).2 = none := by
    simp only [AddDocument]
    rw [if_neg hcond]
    simp only [hsplit1]
  have hTdocs : (AddDocument s document_id document status ratings).1.documents =
      s.documents ++ [(document_id, ⟨ComputeAverageRating ratings, status, document⟩)] := by
    simp only [AddDocument]
    rw [if_neg hcond]
    simp only [hsplit1]
    rw [foldRecord_documents]
  have hTids : (AddDocument s document_id document status ratings).1.document_ids =
      insertSorted document_id s.document_ids := by
    simp only [AddDocument]
    rw [if_neg hcond]
    simp only [hsplit1]
    rw [foldRecord_document_ids]
  have hTforward : (AddDocument s document_id document status ratings).1.document_to_word_freqs =
      ws.foldl (fun m w => mapUpd m document_id []
        (fun inner => mapUpd inner w 0 (fun q => q + 1 / (ws.length : ℚ))))
        s.document_to_word_freqs := by
    simp only [AddDocument]
    rw [if_neg hcond]
    simp only [hsplit1]
    rw [foldRecord_forward]
  have hTword : (AddDocument s document_id document status ratings).1.word_to_document_freqs =
      ws.foldl (fun m w => mapUpd m w []
        (fun inner => mapUpd inner document_id 0 (fun q => q + 1 / (ws.length : ℚ))))
        s.word_to_document_freqs := by
    simp only [AddDocument]
    rw [if_neg hcond]
    simp only [hsplit1]
    rw [foldRecord_word_map]
  have hWF : lookupKey
      (AddDocument s document_id document status ratings).1.document_to_word_freqs document_id =
      some (ws.foldl (fun inner w => mapUpd inner w 0 (fun q => q + 1 / (ws.length : ℚ))) []) := by
    rw [hTforward, foldForward_self, if_neg hne, hforward]
    rfl
  have hmap : (RemoveDocumentSeq
      (AddDocument s document_id document status ratings).1 document_id).word_to_document_freqs =
      (ws.foldl (fun inner w => mapUpd inner w 0 (fun q => q + 1 / (ws.length : ℚ))) []).foldl
        (fun m p => updExisting m p.1 (fun inner => eraseKey inner document_id))
        (AddDocument s document_id document status ratings).1.word_to_document_freqs := by
    simp only [RemoveDocumentSeq, hWF]
    rw [foldEraseServer_word_map]
  refine ⟨⟨herr, ?_, ?_, ?_⟩, fun s₂ id₂ h => by simp only [RemoveDocumentSeq, h]⟩
  · rw [GetDocumentCount, GetDocumentCount]
    have hdocs' : (RemoveDocumentSeq
        (AddDocument s document_id document status ratings).1 document_id).documents =
        s.documents := by
      simp only [RemoveDocumentSeq, hWF]
      rw [foldEraseServer_documents]
      rw [hTdocs, eraseKey_append, eraseKey_of_lookup_none document_id s.documents hdocs]
      simp [eraseKey]
    rw [hdocs']
  · have hids' : (RemoveDocumentSeq
        (AddDocument s document_id document status ratings).1 document_id).document_ids =
        s.document_ids := by
      simp only [RemoveDocumentSeq, hWF]
      rw [foldEraseServer_document_ids]
      rw [hTids, filter_ne_insertSorted]
      exact List.filter_eq_self.mpr (fun a ha => decide_eq_true (fun he => hids (he ▸ ha)))
    rw [documentIds, documentIds, hids']
  · intro w d
    by_cases hw : w ∈ ws
    · have hkey : w ∈ (ws.foldl
          (fun inner w => mapUpd inner w 0 (fun q => q + 1 / (ws.length : ℚ))) []).map Prod.fst := by
        rw [← lookup_isSome_iff_mem_keys, lookup_innerfold]
        simp [hw]
      obtain ⟨inner, hlook, hother⟩ :=
        foldWordMap_mem document_id (1 / (ws.length : ℚ)) ws s.word_to_document_freqs hw
      have hlookfin : lookupKey (RemoveDocumentSeq
          (AddDocument s document_id document status ratings).1 document_id
            ).word_to_document_freqs w = some (eraseKey inner document_id) := by
        rw [hmap, foldErase_mem document_id _ _ hkey, hTword, hlook]
        rfl
      simp only [hasPosting, hlookfin]
      by_cases hd : d = document_id
      · subst hd
        rw [lookupKey_eraseKey_self]
        have hp := hpost w
        simp only [hasPosting] at hp
        simp [hp]
      · rw [lookupKey_eraseKey_other hd, hother d hd]
        cases ho : lookupKey s.word_to_document_freqs w
        · rfl
        · rfl
    · have hkeys : w ∉ (ws.foldl
          (fun inner w => mapUpd inner w 0 (fun q => q + 1 / (ws.length : ℚ))) []).map Prod.fst := by
        rw [← lookup_isSome_iff_mem_keys, lookup_innerfold]
        simp [hw, lookupKey]
      have hlookfin : lookupKey (RemoveDocumentSeq
          (AddDocument s document_id document status ratings).1 document_id
            ).word_to_document_freqs w = lookupKey s.word_to_document_freqs w := by
        rw [hmap, foldErase_other document_id _ _ hkeys, hTword,
          foldWordMap_other document_id _ ws _ hw]
      simp only [hasPosting, hlookfin]

/-- C2 counterexample: a valid document whose only token is a stop word
inserts successfully, but the subsequent `Remove` is a no-op (removal keys on
the forward posting map, which has no entry for the document), so the
document count is not restored: it stays `1` instead of returning to `0`. -/
theorem c2_round_trip_counterexample :
    (AddDocument (initServer ["the"]) 1 "the" DocumentStatus.active []).2 = none ∧
    GetDocumentCount (initServer ["the"]) = 0 ∧
    RemoveDocumentSeq (AddDocument (initServer ["the"]) 1 "the" DocumentStatus.active []).1 1 =
      (AddDocument (initServer ["the"]) 1 "the" DocumentStatus.active []).1 ∧
    GetDocumentCount (RemoveDocumentSeq
      (AddDocument (initServer ["the"]) 1 "the" DocumentStatus.active []).1 1) = 1 := by
  decide

/-- C2 witness: the round trip evaluated for the document `"a"` at id `0` on
a fresh server. -/
theorem c2_witness :
    ((AddDocument (initServer []) 0 "a" DocumentStatus.active []).2 = none ∧
     GetDocumentCount (RemoveDocumentSeq
       (AddDocument (initServer []) 0 "a" DocumentStatus.active []).1 0) =
       GetDocumentCount (initServer []) ∧
     documentIds (RemoveDocumentSeq
       (AddDocument (initServer []) 0 "a" DocumentStatus.active []).1 0) =
       documentIds (initServer []) ∧
     ∀ (w : String) (d : Int),
       hasPosting (RemoveDocumentSeq
         (AddDocument (initServer []) 0 "a" DocumentStatus.active []).1 0) w d =
         hasPosting (initServer []) w d) ∧
    (∀ (s₂ : SearchServer) (id₂ : Int), lookupKey s₂.document_to_word_freqs id₂ = none →
      RemoveDocumentSeq s₂ id₂ = s₂) :=
  c2_insert_remove_round_trip (initServer []) 0 "a" DocumentStatus.active [] ["a"]
    (by decide) (by decide) (by decide) (by decide) (fun w => rfl) (by rfl) (by decide)

theorem lookup_append_isSome {α β : Type} [DecidableEq α] {k : α} {m₁ : List (α × β)}
    (m₂ : List (α × β)) (h : (lookupKey m₁ k).isSome) :
    (lookupKey (m₁ ++ m₂) k).isSome := by
  rw [lookupKey_append_some m₂ h]
  exact h

theorem RemoveDocumentSeq_forward (s : SearchServer) (j i : Int) :
    lookupKey (RemoveDocumentSeq s j).document_to_word_freqs i =
      if i = j then none else lookupKey s.document_to_word_freqs i := by
  cases h : lookupKey s.document_to_word_freqs j with
  | none =>
    simp only [RemoveDocumentSeq, h]
    by_cases hij : i = j
    · rw [if_pos hij, hij, h]
    · rw [if_neg hij]
  | some wf =>
    simp only [RemoveDocumentSeq, h]
    rw [foldEraseServer_forward]
    by_cases hij : i = j
    · rw [if_pos hij, hij, lookupKey_eraseKey_self]
    · rw [if_neg hij, lookupKey_eraseKey_other hij]

theorem RemoveDocumentSeq_documents (s : SearchServer) (j : Int) :
    (RemoveDocumentSeq s j).documents =
      if (lookupKey s.document_to_word_freqs j).isSome then eraseKey s.documents j
      else s.documents := by
  cases h : lookupKey s.document_to_word_freqs j with
  | none =>
    simp only [RemoveDocumentSeq, h, Option.isSome_none, Bool.false_eq_true, if_false]
  | some wf =>
    simp only [RemoveDocumentSeq, h, Option.isSome_some, if_true]
    rw [foldEraseServer_documents]

theorem RemoveDocumentSeq_ids (s : SearchServer) (j : Int) :
    (RemoveDocumentSeq s j).document_ids =
      if (lookupKey s.document_to_word_freqs j).isSome then
        s.document_ids.filter (fun i => decide (i ≠ j))
      else s.document_ids := by
  cases h : lookupKey s.document_to_word_freqs j with
  | none =>
    simp only [RemoveDocumentSeq, h, Option.isSome_none, Bool.false_eq_true, if_false]
  | some wf =>
    simp only [RemoveDocumentSeq, h, Option.isSome_some, if_true]
    rw [foldEraseServer_document_ids]

theorem keys_nodup_innerfold (inv : ℚ) :
    ∀ (ws : List String) (m0 : List (String × ℚ)), (m0.map Prod.fst).Nodup →
      ((ws.foldl (fun inner x => mapUpd inner x 0 (fun q => q + inv)) m0).map Prod.fst).Nodup
  | [], _, h => h
  | w :: ws, m0, h => keys_nodup_innerfold inv ws _ (keys_nodup_mapUpd w 0 _ m0 h)

theorem freq_sum_arith (n : Nat) (hn : n ≠ 0) : (0 : ℚ) + (n : ℚ) * (1 / (n : ℚ)) = 1 := by
  have hq : (n : ℚ) ≠ 0 := by exact_mod_cast hn
  field_simp

theorem freq_bound_arith (c n : Nat) (hc : 0 < c) (hcn : c ≤ n) :
    0 < (c : ℚ) * (1 / (n : ℚ)) ∧ (c : ℚ) * (1 / (n : ℚ)) ≤ 1 := by
  have hn : 0 < n := lt_of_lt_of_le hc hcn
  have hnq : 0 < (n : ℚ) := by exact_mod_cast hn
  have hcq : 0 < (c : ℚ) := by exact_mod_cast hc
  constructor
  · positivity
  · rw [mul_one_div, div_le_one hnq]
    exact_mod_cast hcn

theorem serverInv_add (s : SearchServer) (id : Int) (text : String) (st : DocumentStatus)
    (r : List Int) (h : ServerInv s) : ServerInv (AddDocument s id text st r).1 := by
  by_cases hcond : id < 0 ∨ (lookupKey s.documents id).isSome
  · have hT : AddDocument s id text st r = (s, some Err.invalidDocumentId) := by
      unfold AddDocument
      rw [if_pos hcond]
    rw [hT]
    exact h
  · have hdocnone : lookupKey s.documents id = none := by
      cases hl : lookupKey s.documents id with
      | none => rfl
      | some v => exact absurd (Or.inr (by rw [hl]; rfl)) hcond
    have hfnone : lookupKey s.document_to_word_freqs id = none := by
      cases hf : lookupKey s.document_to_word_freqs id with
      | none => rfl
      | some v =>
        have hds := h.forward_sub_docs id (by rw [hf]; rfl)
        rw [hdocnone] at hds
        exact absurd hds (by simp)
    cases hsp : SplitIntoWordsNoStop
        { s with documents := s.documents ++ [(id, ⟨ComputeAverageRating r, st, text⟩)] }
        text with
    | error e =>
      have hT : (AddDocument s id text st r).1 =
          { s with documents := s.documents ++ [(id, ⟨ComputeAverageRating r, st, text⟩)] } := by
        simp only [AddDocument]
        rw [if_neg hcond]
        simp only [hsp]
      rw [hT]
      refine ⟨?_, h.forward_keys_nodup, h.freq_sum, h.freq_bounds⟩
      intro i hi
      exact lookup_append_isSome _ (h.forward_sub_docs i hi)
    | ok ws =>
      have hTdocs : (AddDocument s id text st r).1.documents =
          s.documents ++ [(id, ⟨ComputeAverageRating r, st, text⟩)] := by
        simp only [AddDocument]
        rw [if_neg hcond]
        simp only [hsp]
        rw [foldRecord_documents]
      have hTforward : (AddDocument s id text st r).1.document_to_word_freqs =
          ws.foldl (fun m w => mapUpd m id []
            (fun inner => mapUpd inner w 0 (fun q => q + 1 / (ws.length : ℚ))))
            s.document_to_word_freqs := by
        simp only [AddDocument]
        rw [if_neg hcond]
        simp only [hsp]
        rw [foldRecord_forward]
      refine ⟨?_, ?_, ?_, ?_⟩
      · intro i hi
        rw [hTforward] at hi
        rw [hTdocs]
        by_cases hij : i = id
        · subst hij
          rw [lookupKey_append_none _ hdocnone]
          simp [lookupKey]
        · rw [foldForward_other id _ hij] at hi
          exact lookup_append_isSome _ (h.forward_sub_docs i hi)
      · intro i m hm
        rw [hTforward] at hm
        by_cases hij : i = id
        · subst hij
          rw [foldForward_self] at hm
          by_cases hws : ws = []
          · rw [if_pos hws, hfnone] at hm
            exact Option.noConfusion hm
          · rw [if_neg hws, hfnone] at hm
            injection hm with hm'
            rw [← hm']
            exact keys_nodup_innerfold _ ws _ (by simp)
        · rw [foldForward_other id _ hij] at hm
          exact h.forward_keys_nodup i m hm
      · intro i m hm
        rw [hTforward] at hm
        by_cases hij : i = id
        · subst hij
          rw [foldForward_self] at hm
          by_cases hws : ws = []
          · rw [if_pos hws, hfnone] at hm
            exact Option.noConfusion hm
          · rw [if_neg hws, hfnone] at hm
            injection hm with hm'
            rw [← hm']
            rw [sumValues_innerfold]
            have hz : sumValues ((none : Option (List (String × ℚ))).getD []) = 0 := rfl
            rw [hz]
            exact freq_sum_arith ws.length (fun hh => hws (List.length_eq_zero.mp hh))
        · rw [foldForward_other id _ hij] at hm
          exact h.freq_sum i m hm
      · intro i m hm p hp
        rw [hTforward] at hm
        by_cases hij : i = id
        · subst hij
          rw [foldForward_self] at hm
          by_cases hws : ws = []
          · rw [if_pos hws, hfnone] at hm
            exact Option.noConfusion hm
          · rw [if_neg hws, hfnone] at hm
            injection hm with hm'
            rw [← hm'] at hp
            have hnodup := keys_nodup_innerfold (1 / (ws.length : ℚ)) ws
              ((none : Option (List (String × ℚ))).getD []) (by simp)
            have hlook := lookup_eq_of_mem_nodup _ hnodup p hp
            rw [lookup_innerfold] at hlook
            by_cases hmem : p.1 ∈ ws ∨
                (lookupKey ((none : Option (List (String × ℚ))).getD []) p.1).isSome
            · rw [if_pos hmem] at hlook
              injection hlook with hv
              have hmem' : p.1 ∈ ws := by
                rcases hmem with hh | hh
                · exact hh
                · exact absurd hh (by simp [lookupKey])
              have hc : 0 < ws.count p.1 := List.count_pos_iff.mpr hmem'
              have hcn : ws.count p.1 ≤ ws.length := List.count_le_length p.1 ws
              rw [← hv]
              have hz : (lookupKey ((none : Option (List (String × ℚ))).getD []) p.1).getD 0 =
                  0 := rfl
              rw [hz, zero_add]
              exact freq_bound_arith _ _ hc hcn
            · rw [if_neg hmem] at hlook
              exact Option.noConfusion hlook
        · rw [foldForward_other id _ hij] at hm
          exact h.freq_bounds i m hm p hp

theorem serverInv_removeSeq (s : SearchServer) (j : Int) (h : ServerInv s) :
    ServerInv (RemoveDocumentSeq s j) := by
  refine ⟨?_, ?_, ?_, ?_⟩
  · intro i hi
    rw [RemoveDocumentSeq_forward] at hi
    by_cases hij : i = j
    · rw [if_pos hij] at hi
      exact absurd hi (by simp)
    · rw [if_neg hij] at hi
      have hds := h.forward_sub_docs i hi
      rw [RemoveDocumentSeq_documents]
      by_cases hjj : (lookupKey s.document_to_word_freqs j).isSome
      · rw [if_pos hjj, lookupKey_eraseKey_other hij]
        exact hds
      · rw [if_neg hjj]
        exact hds
  · intro i m hm
    rw [RemoveDocumentSeq_forward] at hm
    by_cases hij : i = j
    · rw [if_pos hij] at hm
      exact Option.noConfusion hm
    · rw [if_neg hij] at hm
      exact h.forward_keys_nodup i m hm
  · intro i m hm
    rw [RemoveDocumentSeq_forward] at hm
    by_cases hij : i = j
    · rw [if_pos hij] at hm
      exact Option.noConfusion hm
    · rw [if_neg hij] at hm
      exact h.freq_sum i m hm
  · intro i m hm
    rw [RemoveDocumentSeq_forward] at hm
    by_cases hij : i = j
    · rw [if_pos hij] at hm
      exact Option.noConfusion hm
    · rw [if_neg hij] at hm
      exact h.freq_bounds i m hm

theorem serverInv_removePar (s : SearchServer) (j : Int) (h : ServerInv s) :
    ServerInv (RemoveDocumentPar s j) := by
  rw [← remove_seq_par]
  exact serverInv_removeSeq s j h

theorem serverInv_init (stop : List String) : ServerInv (initServer stop) := by
  refine ⟨?_, ?_, ?_, ?_⟩
  · intro i hi
    exact absurd hi (by simp [initServer, lookupKey])
  · intro i m hm
    exact absurd hm (by simp [initServer, lookupKey])
  · intro i m hm
    exact absurd hm (by simp [initServer, lookupKey])
  · intro i m hm
    exact absurd hm (by simp [initServer, lookupKey])

theorem serverInv_fold : ∀ (ops : List Op) (s : SearchServer), ServerInv s →
    ServerInv (ops.foldl applyOp s)
  | [], _, h => h
  | op :: ops, s, h => by
    rw [List.foldl_cons]
    refine serverInv_fold ops _ ?_
    cases op with
    | ins id text st r => exact serverInv_add s id text st r h
    | rem id => exact serverInv_removeSeq s id h
    | remPar id => exact serverInv_removePar s id h

theorem inv_run (stop : List String) (ops : List Op) : ServerInv (run stop ops) :=
  serverInv_fold ops (initServer stop) (serverInv_init stop)

/-- C4 counterexample: after inserting a valid document consisting only of
stop words, the document is indexed (its id is in `DocumentIds()`), yet its
term-frequency map is empty, so the frequency sum is `0`, not `1`. -/
theorem c4_frequency_sum_counterexample :
    (1 : Int) ∈ documentIds (run ["the"] [Op.ins 1 "the" DocumentStatus.active []]) ∧
    GetWordFrequencies (run ["the"] [Op.ins 1 "the" DocumentStatus.active []]) 1 = [] ∧
    sumValues (GetWordFrequencies (run ["the"] [Op.ins 1 "the" DocumentStatus.active []]) 1) = 0 ∧
    (0 : ℚ) ≠ 1 := by
  refine ⟨by decide, by decide, ?_, by norm_num⟩
  have hz : GetWordFrequencies (run ["the"] [Op.ins 1 "the" DocumentStatus.active []]) 1 = [] := by
    decide
  rw [hz]
  rfl

/-- C4 (amended): after any sequence of insertions and removals (under
either policy), every document's stored term-frequency map either is empty
(the case of a document indexed with zero non-stop tokens) or sums to
exactly `1` in exact rational arithmetic with every stored frequency in
`(0, 1]`.  Every individual stored frequency is always in `(0, 1]`. -/
theorem c4_frequency_sum_invariant (stop : List String) (ops : List Op) (i : Int) :
    GetWordFrequencies (run stop ops) i = [] ∨
    (sumValues (GetWordFrequencies (run stop ops) i) = 1 ∧
     ∀ p ∈ GetWordFrequencies (run stop ops) i, 0 < p.2 ∧ p.2 ≤ 1) := by
  have hinv := inv_run stop ops
  cases ho : lookupKey (run stop ops).document_to_word_freqs i with
  | none =>
    left
    simp [GetWordFrequencies, ho]
  | some m =>
    right
    have hm : GetWordFrequencies (run stop ops) i = m := by
      simp [GetWordFrequencies, ho]
    rw [hm]
    exact ⟨hinv.freq_sum i m ho, hinv.freq_bounds i m ho⟩

theorem duplicateScan_subset (s : SearchServer) :
    ∀ (l : List Int) (seen : List (List String)) (i : Int),
      i ∈ duplicateScan s l seen → i ∈ l
  | [], _, i, h => absurd h (List.not_mem_nil i)
  | a :: rest, seen, i, h => by
    simp only [duplicateScan] at h
    by_cases hs : wordSetOf s a ∈ seen
    · rw [if_pos hs] at h
      rcases List.mem_cons.mp h with rfl | h'
      · exact List.mem_cons_self _ _
      · exact List.mem_cons_of_mem a (duplicateScan_subset s rest seen i h')
    · rw [if_neg hs] at h
      exact List.mem_cons_of_mem a (duplicateScan_subset s rest _ i h)

theorem duplicateScan_mem (s : SearchServer) :
    ∀ (l : List Int) (seen : List (List String)), l.Pairwise (· < ·) →
      ∀ i : Int, i ∈ duplicateScan s l seen ↔
        i ∈ l ∧ (wordSetOf s i ∈ seen ∨ ∃ j ∈ l, j < i ∧ wordSetOf s j = wordSetOf s i)
  | [], seen, _, i => by simp [duplicateScan]
  | a :: rest, seen, hsort, i => by
    obtain ⟨ha, hrest⟩ := List.pairwise_cons.mp hsort
    simp only [duplicateScan]
    by_cases hs : wordSetOf s a ∈ seen
    · rw [if_pos hs]
      constructor
      · intro h
        rcases List.mem_cons.mp h with rfl | h'
        · exact ⟨List.mem_cons_self _ _, Or.inl hs⟩
        · obtain ⟨hi, hcond⟩ := (duplicateScan_mem s rest seen hrest i).mp h'
          refine ⟨List.mem_cons_of_mem a hi, ?_⟩
          rcases hcond with hc | ⟨j, hj, hji, hw⟩
          · exact Or.inl hc
          · exact Or.inr ⟨j, List.mem_cons_of_mem a hj, hji, hw⟩
      · rintro ⟨hi, hcond⟩
        rcases List.mem_cons.mp hi with rfl | hi'
        · exact List.mem_cons_self i _
        · refine List.mem_cons_of_mem a
            ((duplicateScan_mem s rest seen hrest i).mpr ⟨hi', ?_⟩)
          rcases hcond with hc | ⟨j, hj, hji, hw⟩
          · exact Or.inl hc
          · rcases List.mem_cons.mp hj with rfl | hj'
            · exact Or.inl (hw ▸ hs)
            · exact Or.inr ⟨j, hj', hji, hw⟩
    · rw [if_neg hs]
      rw [duplicateScan_mem s rest _ hrest i]
      constructor
      · rintro ⟨hi', hcond⟩
        refine ⟨List.mem_cons_of_mem a hi', ?_⟩
        rcases hcond with hc | ⟨j, hj, hji, hw⟩
        · rcases List.mem_append.mp hc with hc' | hc'
          · exact Or.inl hc'
          · have heq : wordSetOf s i = wordSetOf s a := List.mem_singleton.mp hc'
            exact Or.inr ⟨a, List.mem_cons_self a rest, ha i hi', heq.symm⟩
        · exact Or.inr ⟨j, List.mem_cons_of_mem a hj, hji, hw⟩
      · rintro ⟨hi, hcond⟩
        rcases List.mem_cons.mp hi with rfl | hi'
        · exfalso
          rcases hcond with hc | ⟨j, hj, hji, hw⟩
          · exact hs hc
          · rcases List.mem_cons.mp hj with rfl | hj'
            · exact lt_irrefl _ hji
            · exact lt_asymm (ha j hj') hji
        · refine ⟨hi', ?_⟩
          rcases hcond with hc | ⟨j, hj, hji, hw⟩
          · exact Or.inl (List.mem_append_left _ hc)
          · rcases List.mem_cons.mp hj with rfl | hj'
            · exact Or.inl (List.mem_append_right _ (List.mem_singleton.mpr hw.symm))
            · exact Or.inr ⟨j, hj', hji, hw⟩

theorem foldRemove_mem_ids :
    ∀ (L : List Int) (s : SearchServer) (i : Int),
      i ∈ (L.foldl RemoveDocumentSeq s).document_ids ↔
        i ∈ s.document_ids ∧
          ¬(i ∈ L ∧ (lookupKey s.document_to_word_freqs i).isSome = true)
  | [], s, i => by simp
  | j :: L, s, i => by
    rw [List.foldl_cons, foldRemove_mem_ids L (RemoveDocumentSeq s j) i]
    rw [RemoveDocumentSeq_ids, RemoveDocumentSeq_forward]
    by_cases hij : i = j
    · subst hij
      rw [if_pos rfl]
      by_cases hj : (lookupKey s.document_to_word_freqs i).isSome
      · rw [if_pos hj]
        simp only [List.mem_filter, decide_eq_true_eq, List.mem_cons, Option.isSome_none,
          Bool.false_eq_true, hj]
        tauto
      · rw [if_neg hj]
        simp only [List.mem_cons, Option.isSome_none, Bool.false_eq_true]
        have hj' : (lookupKey s.document_to_word_freqs i).isSome = false := by
          cases hb : (lookupKey s.document_to_word_freqs i).isSome
          · rfl
          · exact absurd hb hj
        rw [hj']
        simp only [Bool.false_eq_true]
        tauto
    · rw [if_neg hij]
      by_cases hj : (lookupKey s.document_to_word_freqs j).isSome
      · rw [if_pos hj]
        simp only [List.mem_filter, decide_eq_true_eq, List.mem_cons]
        constructor
        · rintro ⟨⟨hin, _⟩, hnc⟩
          refine ⟨hin, ?_⟩
          rintro ⟨hmem, hsome⟩
          rcases hmem with rfl | hmem'
          · exact hij rfl
          · exact hnc ⟨hmem', hsome⟩
        · rintro ⟨hin, hnc⟩
          refine ⟨⟨hin, hij⟩, ?_⟩
          rintro ⟨hmem, hsome⟩
          exact hnc ⟨Or.inr hmem, hsome⟩
      · rw [if_neg hj]
        simp only [List.mem_cons]
        constructor
        · rintro ⟨hin, hnc⟩
          refine ⟨hin, ?_⟩
          rintro ⟨hmem, hsome⟩
          rcases hmem with rfl | hmem'
          · exact hij rfl
          · exact hnc ⟨hmem', hsome⟩
        · rintro ⟨hin, hnc⟩
          refine ⟨hin, ?_⟩
          rintro ⟨hmem, hsome⟩
          exact hnc ⟨Or.inr hmem, hsome⟩

/-- C9 counterexample: two documents whose texts are entirely stop words
have identical (empty) indexed term sets, so the claim says only the lower
id survives `RemoveDuplicates`; but removal keys on the forward posting map,
which has no entry for either, so the higher id is detected yet NOT removed
and both ids remain. -/
theorem c9_remove_duplicates_counterexample :
    documentIds (RemoveDuplicates (run ["the"]
      [Op.ins 1 "the" DocumentStatus.active [], Op.ins 2 "the" DocumentStatus.active []])) =
      [1, 2] ∧
    wordSetOf (run ["the"]
      [Op.ins 1 "the" DocumentStatus.active [], Op.ins 2 "the" DocumentStatus.active []]) 1 =
      wordSetOf (run ["the"]
        [Op.ins 1 "the" DocumentStatus.active [], Op.ins 2 "the" DocumentStatus.active []]) 2 ∧
    (1 : Int) < 2 := by
  decide

/-- C9 (amended): over a server whose id set is strictly ascending, after
`RemoveDuplicates()` a document id remains exactly when it was present
before and it is NOT the case that both (a) some lower id indexes an
identical term set and (b) the document has a forward posting entry (i.e. a
non-empty term set, for reachable states).  In particular the lowest id of
every equivalence class survives and unique documents are untouched, but a
higher-id duplicate with an empty term set is detected yet not removed. -/
theorem c9_remove_duplicates_amended (s : SearchServer)
    (hsort : s.document_ids.Pairwise (· < ·)) :
    ∀ i : Int, i ∈ documentIds (RemoveDuplicates s) ↔
      i ∈ documentIds s ∧
        ¬((∃ j ∈ documentIds s, j < i ∧ wordSetOf s j = wordSetOf s i) ∧
          (lookupKey s.document_to_word_freqs i).isSome = true) := by
  intro i
  simp only [RemoveDuplicates, documentIds]
  rw [foldRemove_mem_ids]
  have hscan := duplicateScan_mem s s.document_ids [] hsort i
  simp only [List.not_mem_nil, false_or] at hscan
  constructor
  · rintro ⟨hin, hnc⟩
    refine ⟨hin, ?_⟩
    rintro ⟨hex, hsome⟩
    exact hnc ⟨hscan.mpr ⟨hin, hex⟩, hsome⟩
  · rintro ⟨hin, hnc⟩
    refine ⟨hin, ?_⟩
    rintro ⟨hmem, hsome⟩
    exact hnc ⟨(hscan.mp hmem).2, hsome⟩

/-- C9 witness: on a two-document index where ids `1` and `2` share the term
set `{a}`, the higher id `2` does not survive `RemoveDuplicates`. -/
theorem c9_witness :
    (2 : Int) ∉ documentIds (RemoveDuplicates
      ⟨[], [("a", [(1, 1), (2, 1)])], [(1, [("a", 1)]), (2, [("a", 1)])],
        [(1, ⟨0, DocumentStatus.active, "a"⟩), (2, ⟨0, DocumentStatus.active, "a"⟩)],
        [1, 2]⟩) :=
  fun h =>
    absurd ((c9_remove_duplicates_amended
      ⟨[], [("a", [(1, 1), (2, 1)])], [(1, [("a", 1)]), (2, [("a", 1)])],
        [(1, ⟨0, DocumentStatus.active, "a"⟩), (2, ⟨0, DocumentStatus.active, "a"⟩)],
        [1, 2]⟩
      (by simp) 2).mp h) (by decide)
